import Mathlib

/-!
Shallow embedding of NVC's constant evaluator (`eval.c`, given as
`src/unnamed/part_000`) and static bounds/choice checker (`bounds.c`,
given as `src/unnamed/part_001`).

Conventions:
* Identifiers are interned strings; we model them as `String` with its
  decidable equality (`icmp` below).
* C `int64_t` arithmetic is modelled as unbounded `Int` with explicit
  two's-complement wrapping (`wrap64`) where the source can overflow,
  and `int` as `wrap32`.
* C `double` values are modelled as `Rat`; no claim in this development
  depends on floating-point rounding, only on which node kind results.
* `assert` failures, `fatal_at` calls, and C undefined behaviour
  (out-of-bounds array parameter reads, division by zero) are modelled
  as `Except.error` outcomes of kind `efatal`.
* Unbounded recursion in the C interpreter (recursive user functions,
  diverging loops) is modelled with an explicit `fuel` parameter;
  running out of fuel is the distinct outcome `efatal.outOfFuel`.
-/

abbrev ident := String

/-- `icmp(i, s)` from NVC: interned-identifier comparison against a string. -/
def icmp (i : ident) (s : ident) : Bool := i == s

/-- Two's-complement wrap of an unbounded integer to signed 64 bits,
    the semantics the spec assigns to the evaluator's integer ops. -/
def wrap64 (x : Int) : Int := (x + 2 ^ 63) % 2 ^ 64 - 2 ^ 63

/-- Two's-complement wrap to signed 32 bits (C `int`). -/
def wrap32 (x : Int) : Int := (x + 2 ^ 31) % 2 ^ 32 - 2 ^ 31

def INT64_MAX : Int := 2 ^ 63 - 1
def INT64_MIN : Int := -(2 ^ 63)
def INT32_MAX : Int := 2 ^ 31 - 1

/-- `MAX_ITERS` from `part_000` line 28. -/
def MAX_ITERS : Nat := 1000

/-- `VTABLE_SZ` from `part_000` line 27. -/
def VTABLE_SZ : Nat := 16

/-- Fatal outcomes: C `assert` failure / accessor on a missing item,
    `fatal_at`, integer division by zero (a C trap), and exhaustion of
    the recursion fuel of the shallow embedding. -/
inductive efatal where
  | assertFail
  | fatalAt
  | divByZero
  | outOfFuel
deriving DecidableEq, Repr

/-- `range_kind_t`: `RANGE_TO`, `RANGE_DOWNTO`, or any other (sentinel). -/
inductive rkind where
  | rTo
  | rDownto
  | rOther
deriving DecidableEq, Repr

/-- Predefined attribute tags for `bounds_check_attr_ref`. -/
inductive predefAttr where
  | attrLength
  | attrLow
  | attrHigh
  | attrLeft
  | attrRight
  | attrOtherPredef
deriving DecidableEq, Repr

mutual
/-- A range bound expression as it occurs inside a type: the sub-grammar of
    tree nodes that the bounds checker ever queries on type dimensions.
    `cons` is the bound's own attached type (`tree_type(dim.left)` in
    `bounds_check_decl`).  `bInt`/`bReal` are `T_LITERAL` nodes, `bEnum`
    is a `T_REF` to a `T_ENUM_LIT` carrying its position, and `bOther`
    is any other (unfoldable) expression. -/
inductive bnd where
  | bInt (cons : Option ty) (ival : Int)
  | bReal (cons : Option ty) (rval : Rat)
  | bEnum (cons : Option ty) (lit : ident) (pos : Nat)
  | bOther (cons : Option ty)

/-- `range_t` on a type dimension: `(left, right, kind)`. -/
inductive rangeB where
  | mk (left : bnd) (right : bnd) (kind : rkind)

/-- `type_t`: the type model of §3 of the spec, restricted to what the two
    source files consult.  Enumeration literals are kept as their interned
    names in declaration order (position = list index). -/
inductive ty where
  | tInteger (dims : List rangeB)
  | tReal (dims : List rangeB)
  | tPhysical (dims : List rangeB)
  | tEnum (name : ident) (lits : List ident)
  | tCarray (dims : List rangeB) (elem : ty)
  | tUarray (indexConstr : List ty) (elem : ty)
  | tSubtype (base : ty) (dims : List rangeB)
  | tRecord
  | tAccess
  | tFile
end

namespace rangeB
def left : rangeB → bnd | .mk l _ _ => l
def right : rangeB → bnd | .mk _ r _ => r
def kind : rangeB → rkind | .mk _ _ k => k
end rangeB

/-- `type_kind(t) == T_SUBTYPE` test. -/
def ty.isSubtypeKind : ty → Bool
  | .tSubtype _ _ => true
  | _ => false

/-- `type_is_array`: constrained or unconstrained array, through subtypes. -/
def type_is_array : ty → Bool
  | .tCarray _ _ => true
  | .tUarray _ _ => true
  | .tSubtype base _ => type_is_array base
  | _ => false

/-- `type_is_integer`, through subtypes. -/
def type_is_integer : ty → Bool
  | .tInteger _ => true
  | .tSubtype base _ => type_is_integer base
  | _ => false

/-- `type_is_real`, through subtypes. -/
def type_is_real : ty → Bool
  | .tReal _ => true
  | .tSubtype base _ => type_is_real base
  | _ => false

/-- `type_is_enum`, through subtypes. -/
def type_is_enum : ty → Bool
  | .tEnum _ _ => true
  | .tSubtype base _ => type_is_enum base
  | _ => false

/-- `type_is_record`, through subtypes. -/
def type_is_record : ty → Bool
  | .tRecord => true
  | .tSubtype base _ => type_is_record base
  | _ => false

/-- Modelled from the spec: `type_is_unconstrained` (the implementation is
    not under `src/`).  An unconstrained array type, or a subtype that adds
    no constraint over an unconstrained base. -/
def type_is_unconstrained : ty → Bool
  | .tUarray _ _ => true
  | .tSubtype base dims => dims.isEmpty && type_is_unconstrained base
  | _ => false

/-- Number of dimension ranges attached to a type. -/
def type_dims : ty → Nat
  | .tInteger dims => dims.length
  | .tReal dims => dims.length
  | .tPhysical dims => dims.length
  | .tCarray dims _ => dims.length
  | .tSubtype _ dims => dims.length
  | _ => 0

/-- `type_dim(t, n)`; `none` models the C assert on a missing item. -/
def type_dim : ty → Nat → Option rangeB
  | .tInteger dims, n => dims.get? n
  | .tReal dims, n => dims.get? n
  | .tPhysical dims, n => dims.get? n
  | .tCarray dims _, n => dims.get? n
  | .tSubtype _ dims, n => dims.get? n
  | _, _ => none

/-- `type_base_recur`: strip subtypes down to the base type. -/
def type_base_recur : ty → ty
  | .tSubtype base _ => type_base_recur base
  | t => t

/-- `type_elem`, through subtypes. -/
def type_elem : ty → Option ty
  | .tCarray _ elem => some elem
  | .tUarray _ elem => some elem
  | .tSubtype base _ => type_elem base
  | _ => none

/-- `type_enum_literals`. -/
def type_enum_literals : ty → Option Nat
  | .tEnum _ lits => some lits.length
  | _ => none

/-- `type_enum_literal(t, n)`: the literal's interned name. -/
def type_enum_literal : ty → Nat → Option ident
  | .tEnum _ lits, n => lits.get? n
  | _, _ => none

/-- `type_index_constr(t, n)` of an unconstrained array type. -/
def type_index_constr : ty → Nat → Option ty
  | .tUarray ics _, n => ics.get? n
  | _, _ => none

/-- Association subkinds for call parameters (`P_POS` / named). -/
inductive psubkind where
  | pPos
  | pNamed
deriving DecidableEq, Repr

mutual
/-- The tree node model (§3): one constructor per node kind consulted by
    the two source files, with the child slots those files read.
    `elide` on `arrayRef` is the `elide_bounds` attribute;
    `unconstrained` on `aggregate` is the `unconstrained` attribute set by
    the semantic analyser; `builtin` on function declarations is the
    `builtin` string attribute; `builtinAttr` on `attrRef` is the
    predefined-attribute tag. -/
inductive tree where
  | litInt (oty : Option ty) (ival : Int)
  | litReal (oty : Option ty) (rval : Rat)
  | litString (oty : Option ty) (chars : List ident)
  | litOther (oty : Option ty)
  | ref (oty : Option ty) (decl : tree)
  | fcall (oty : Option ty) (decl : tree) (params : List paramT)
  | pcall (decl : tree) (params : List paramT)
  | typeConv (oty : Option ty) (params : List paramT)
  | arrayRef (oty : Option ty) (value : tree) (params : List paramT) (elide : Bool)
  | arraySlice (oty : Option ty) (value : tree) (rng : rangeE)
  | aggregate (oty : Option ty) (unconstrained : Bool) (assocs : List assocT)
  | attrRef (builtinAttr : predefAttr) (name : tree) (params : List paramT)
  | enumLit (tyName : ident) (name : ident) (pos : Nat)
  | funcDecl (builtin : Option ident) (name : ident) (ports : List tree)
  | funcBody (builtin : Option ident) (name : ident) (ports : List tree)
      (decls : List tree) (stmts : List tree)
  | portDecl (oty : Option ty) (name : ident)
  | varDecl (oty : Option ty) (name : ident) (value : Option tree)
  | constDecl (oty : Option ty) (name : ident) (value : Option tree)
  | signalDecl (oty : Option ty) (name : ident) (value : Option tree)
  | sreturn (value : Option tree)
  | swhile (label : ident) (cond : Option tree) (stmts : List tree)
  | sfor (label : ident) (decls : List tree) (rng : rangeE) (stmts : List tree)
  | sif (cond : tree) (stmts : List tree) (elseStmts : List tree)
  | svarAssign (target : tree) (value : tree)
  | ssignalAssign (target : tree) (waveforms : List tree)
  | sblock (decls : List tree) (stmts : List tree)
  | sexit (label2 : ident) (cond : Option tree)
  | scase (value : tree) (assocs : List assocT)

/-- `range_t` in expression position (for-loop ranges, slices, ranged
    associations): tree endpoints plus a direction. -/
inductive rangeE where
  | mk (left : tree) (right : tree) (kind : rkind)

/-- A call/indexing parameter: subkind (`P_POS` asserted where the source
    does), formal position, and actual value. -/
inductive paramT where
  | mk (sub : psubkind) (pos : Nat) (value : tree)

/-- `assoc` nodes: positional, named, ranged, and `others` choices. -/
inductive assocT where
  | apos (value : tree)
  | anamed (name : tree) (value : tree)
  | arange (rng : rangeE) (value : tree)
  | aothers (value : tree)
end

namespace rangeE
def left : rangeE → tree | .mk l _ _ => l
def right : rangeE → tree | .mk _ r _ => r
def kind : rangeE → rkind | .mk _ _ k => k
end rangeE

namespace paramT
def sub : paramT → psubkind | .mk s _ _ => s
def pos : paramT → Nat | .mk _ p _ => p
def value : paramT → tree | .mk _ _ v => v
end paramT

/-- `tree_type`: the optional attached type of a node. -/
def tree_type : tree → Option ty
  | .litInt oty _ => oty
  | .litReal oty _ => oty
  | .litString oty _ => oty
  | .litOther oty => oty
  | .ref oty _ => oty
  | .fcall oty _ _ => oty
  | .typeConv oty _ => oty
  | .arrayRef oty _ _ _ => oty
  | .arraySlice oty _ _ => oty
  | .aggregate oty _ _ => oty
  | .portDecl oty _ => oty
  | .varDecl oty _ _ => oty
  | .constDecl oty _ _ => oty
  | .signalDecl oty _ _ => oty
  | _ => none

/-- `tree_ident`: declarations carry their name; a reference answers with
    the name of its declaration (same interned identifier). -/
def tree_ident : tree → Option ident
  | .ref _ decl => tree_ident decl
  | .enumLit _ name _ => some name
  | .funcDecl _ name _ => some name
  | .funcBody _ name _ _ _ => some name
  | .portDecl _ name => some name
  | .varDecl _ name _ => some name
  | .constDecl _ name _ => some name
  | .signalDecl _ name _ => some name
  | .swhile label _ _ => some label
  | .sfor label _ _ _ => some label
  | _ => none

def boolean_i : ident := "BOOLEAN"
def true_i : ident := "TRUE"
def false_i : ident := "FALSE"

/-- Modelled from the spec (§4.1, implementation outside `src/`):
    `folded_int` recognises an integer literal. -/
def folded_int : tree → Option Int
  | .litInt _ i => some i
  | _ => none

/-- Modelled from the spec (§4.1): `folded_real` recognises a real literal. -/
def folded_real : tree → Option Rat
  | .litReal _ r => some r
  | _ => none

/-- Modelled from the spec (§4.1): `folded_bool` recognises a reference to
    one of the two BOOLEAN enumeration literals. -/
def folded_bool : tree → Option Bool
  | .ref _ (.enumLit tyName _ pos) =>
      if tyName == boolean_i then some (pos == 1) else none
  | _ => none

/-- Modelled from the spec (§4.1): `folded_enum` recognises a reference to
    an enumeration literal and yields its position. -/
def folded_enum : tree → Option Nat
  | .ref _ (.enumLit _ _ pos) => some pos
  | _ => none

/-- Modelled from the spec (§4.1): `folded_bounds` normalises a folded
    range's direction, `(low, high)` = `(left, right)` for `to` and
    `(right, left)` for `downto`. -/
def folded_bounds (r : rangeE) : Option (Int × Int) :=
  match folded_int r.left, folded_int r.right, r.kind with
  | some l, some r', .rTo => some (l, r')
  | some l, some r', .rDownto => some (r', l)
  | _, _, _ => none

/-- Modelled from the spec (§4.1): `folded_length` is `high − low + 1`
    clamped to zero for null ranges. -/
def folded_length (r : rangeE) : Option Int :=
  (folded_bounds r).map fun lh => max (lh.2 - lh.1 + 1) 0

/-- `folded_int` on a type-dimension bound. -/
def foldedB_int : bnd → Option Int
  | .bInt _ i => some i
  | _ => none

/-- `folded_enum` on a type-dimension bound. -/
def foldedB_enum : bnd → Option Nat
  | .bEnum _ _ pos => some pos
  | _ => none

/-- `folded_bounds` on a type-dimension range. -/
def foldedB_bounds (r : rangeB) : Option (Int × Int) :=
  match foldedB_int r.left, foldedB_int r.right, r.kind with
  | some l, some r', .rTo => some (l, r')
  | some l, some r', .rDownto => some (r', l)
  | _, _, _ => none

/-- `folded_length` on a type-dimension range. -/
def foldedB_length (r : rangeB) : Option Int :=
  (foldedB_bounds r).map fun lh => max (lh.2 - lh.1 + 1) 0

/-- Modelled from the spec (implementation outside `src/`): `assume_int`
    insists the expression is an integer literal or a reference to an
    enumeration literal; any other shape is a fatal error at the caller. -/
def assume_int : tree → Option Int
  | .litInt _ i => some i
  | .ref _ (.enumLit _ _ pos) => some (pos : Int)
  | _ => none

/-- `assume_int` on a type-dimension bound. -/
def assumeB_int : bnd → Option Int
  | .bInt _ i => some i
  | .bEnum _ _ pos => some (pos : Int)
  | _ => none

/-- Modelled from the spec: `range_bounds` is `assume_int` on both
    endpoints, direction-normalised; non-numeric shapes are fatal. -/
def range_bounds (r : rangeB) : Option (Int × Int) :=
  match assumeB_int r.left, assumeB_int r.right, r.kind with
  | some l, some r', .rTo => some (l, r')
  | some l, some r', .rDownto => some (r', l)
  | _, _, _ => none

/-- C truncation toward zero of a real value to an integer. -/
def rat_trunc (q : Rat) : Int := Int.tdiv q.num (q.den : Int)

/-- `get_int_lit(t, v)`: a fresh integer literal typed like `t`. -/
def get_int_lit (t : tree) (v : Int) : tree := .litInt (tree_type t) v

/-- `get_real_lit(t, v)`: a fresh real literal typed like `t`. -/
def get_real_lit (t : tree) (v : Rat) : tree := .litReal (tree_type t) v

/-- `get_bool_lit(t, b)`: a reference to the BOOLEAN literal `b`. -/
def get_bool_lit (t : tree) (b : Bool) : tree :=
  .ref (tree_type t) (.enumLit boolean_i (if b then true_i else false_i)
    (if b then 1 else 0))

/-- `folded` from `part_000` lines 116‑127: a literal of any subkind, or a
    reference that `folded_bool` recognises. -/
def folded : tree → Bool
  | .litInt _ _ => true
  | .litReal _ _ => true
  | .litString _ _ => true
  | .litOther _ => true
  | .ref oty decl => (folded_bool (.ref oty decl)).isSome
  | _ => false

/-! ## The constant evaluator (`part_000`) -/

/-- One binding frame: at most `VTABLE_SZ` (16) name/value slots. -/
structure vtframe where
  binding : List (ident × tree)

/-- `vtable_t`: frame stack plus the sticky `failed` flag, the pending
    `exit` label, and the pending `return` result. -/
structure vtable where
  top : List vtframe
  failed : Bool
  exit : Option ident
  result : Option tree

/-- `vtable_push`. -/
def vtable_push (v : vtable) : vtable := { v with top := ⟨[]⟩ :: v.top }

/-- `vtable_pop`: also clears `result` (line 75 of the source).  Popping an
    empty stack dereferences a null pointer in C; modelled as fatal. -/
def vtable_pop (v : vtable) : Except efatal vtable :=
  match v.top with
  | [] => throw .assertFail
  | _ :: rest => return { v with top := rest, result := none }

/-- Replace the value of the first binding slot with this name. -/
def binding_replace : List (ident × tree) → ident → tree → List (ident × tree)
  | [], _, _ => []
  | b :: rest, name, value =>
      if b.1 == name then (name, value) :: rest
      else b :: binding_replace rest name value

/-- `vtable_bind` on one frame: replace an existing slot, else append,
    with the C `assert(f->size < VTABLE_SZ)` on overflow. -/
def vtframe_bind (f : vtframe) (name : ident) (value : tree) :
    Except efatal vtframe :=
  if f.binding.any (·.1 == name) then
    return ⟨binding_replace f.binding name value⟩
  else if f.binding.length < VTABLE_SZ then
    return ⟨f.binding ++ [(name, value)]⟩
  else
    throw .assertFail

/-- `vtable_bind`: a missing top frame is silently ignored (lines 82‑83). -/
def vtable_bind (v : vtable) (name : ident) (value : tree) :
    Except efatal vtable :=
  match v.top with
  | [] => return v
  | f :: rest => do
      let f' ← vtframe_bind f name value
      return { v with top := f' :: rest }

/-- `vtframe_get`: search the frame then recurse down the stack. -/
def vtframe_get : List vtframe → ident → Option tree
  | [], _ => none
  | f :: rest, name =>
      match f.binding.find? (·.1 == name) with
      | some b => some b.2
      | none => vtframe_get rest name

/-- `vtable_get`. -/
def vtable_get (v : vtable) (name : ident) : Option tree :=
  vtframe_get v.top name

/-- C array read `args[i]`; an out-of-range index is undefined behaviour in
    the source (a VLA over-read), modelled as fatal. -/
def arg (args : List α) (i : Nat) : Except efatal α :=
  match args.get? i with
  | some a => return a
  | none => throw .assertFail

/-- `eval_fcall_log` (lines 129‑151). -/
def eval_fcall_log (t : tree) (builtin : ident) (args : List Bool) :
    Except efatal tree := do
  if icmp builtin "not" then
    return get_bool_lit t (!(← arg args 0))
  else if icmp builtin "and" then
    return get_bool_lit t ((← arg args 0) && (← arg args 1))
  else if icmp builtin "nand" then
    return get_bool_lit t (!((← arg args 0) && (← arg args 1)))
  else if icmp builtin "or" then
    return get_bool_lit t ((← arg args 0) || (← arg args 1))
  else if icmp builtin "nor" then
    return get_bool_lit t (!((← arg args 0) || (← arg args 1)))
  else if icmp builtin "xor" then
    return get_bool_lit t (xor (← arg args 0) (← arg args 1))
  else if icmp builtin "xnor" then
    return get_bool_lit t (!(xor (← arg args 0) (← arg args 1)))
  else if icmp builtin "eq" then
    return get_bool_lit t ((← arg args 0) == (← arg args 1))
  else if icmp builtin "neq" then
    return get_bool_lit t ((← arg args 0) != (← arg args 1))
  else
    return t

/-- `eval_fcall_real` (lines 153‑177).  `double` arithmetic is modelled
    over `Rat`; division by zero yields `0` in `Rat` where C produces an
    IEEE infinity — no claim depends on the numeric value. -/
def eval_fcall_real (t : tree) (builtin : ident) (args : List Rat) :
    Except efatal tree := do
  if icmp builtin "mul" then
    return get_real_lit t ((← arg args 0) * (← arg args 1))
  else if icmp builtin "div" then
    return get_real_lit t ((← arg args 0) / (← arg args 1))
  else if icmp builtin "add" then
    return get_real_lit t ((← arg args 0) + (← arg args 1))
  else if icmp builtin "sub" then
    return get_real_lit t ((← arg args 0) - (← arg args 1))
  else if icmp builtin "neg" then
    return get_real_lit t (-(← arg args 0))
  else if icmp builtin "identity" then
    return get_real_lit t (← arg args 0)
  else if icmp builtin "eq" then
    return get_bool_lit t ((← arg args 0) == (← arg args 1))
  else if icmp builtin "neq" then
    return get_bool_lit t ((← arg args 0) != (← arg args 1))
  else if icmp builtin "gt" then
    return get_bool_lit t ((← arg args 0) > (← arg args 1) : Bool)
  else if icmp builtin "lt" then
    return get_bool_lit t ((← arg args 0) < (← arg args 1) : Bool)
  else
    return t

/-- The repeated-squaring loop of the `exp` builtin (lines 217‑222), over
    two's-complement 64-bit arithmetic.  The loop halves `b` each
    iteration; the first argument is structural fuel, and `fuel = b`
    (what `exp_loop` below passes) always suffices. -/
def exp_loop_fuel : Nat → Int → Int → Nat → Int
  | 0, result, _, _ => result
  | fuel + 1, result, a, b =>
      if b = 0 then result
      else
        exp_loop_fuel fuel (if b % 2 = 1 then wrap64 (result * a) else result)
          (wrap64 (a * a)) (b / 2)

/-- `while (b != 0) { if (b & 1) result *= a; a *= a; b >>= 1; }`. -/
def exp_loop (result a : Int) (b : Nat) : Int :=
  exp_loop_fuel b result a b

/-- `eval_fcall_int` (lines 179‑246).  Division/remainder by zero traps in
    C (modelled as fatal); other arithmetic wraps at 64 bits. -/
def eval_fcall_int (t : tree) (builtin : ident) (args : List Int) :
    Except efatal tree := do
  if icmp builtin "mul" then
    return get_int_lit t (wrap64 ((← arg args 0) * (← arg args 1)))
  else if icmp builtin "div" then
    let b ← arg args 1
    if b = 0 then throw .divByZero
    else return get_int_lit t (wrap64 (Int.tdiv (← arg args 0) b))
  else if icmp builtin "add" then
    return get_int_lit t (wrap64 ((← arg args 0) + (← arg args 1)))
  else if icmp builtin "sub" then
    return get_int_lit t (wrap64 ((← arg args 0) - (← arg args 1)))
  else if icmp builtin "neg" then
    return get_int_lit t (wrap64 (-(← arg args 0)))
  else if icmp builtin "identity" then
    return get_int_lit t (← arg args 0)
  else if icmp builtin "eq" then
    return get_bool_lit t ((← arg args 0) == (← arg args 1))
  else if icmp builtin "neq" then
    return get_bool_lit t ((← arg args 0) != (← arg args 1))
  else if icmp builtin "gt" then
    return get_bool_lit t ((← arg args 0) > (← arg args 1) : Bool)
  else if icmp builtin "lt" then
    return get_bool_lit t ((← arg args 0) < (← arg args 1) : Bool)
  else if icmp builtin "leq" then
    return get_bool_lit t ((← arg args 0) ≤ (← arg args 1) : Bool)
  else if icmp builtin "geq" then
    return get_bool_lit t ((← arg args 0) ≥ (← arg args 1) : Bool)
  else if icmp builtin "exp" then
    let a ← arg args 0
    let b ← arg args 1
    if a = 0 then return get_int_lit t 0
    else if b = 0 then return get_int_lit t 1
    else if b < 0 then return t
    else return get_int_lit t (exp_loop 1 a b.toNat)
  else if icmp builtin "min" then
    match args with
    | [] => throw .assertFail
    | a :: rest => return get_int_lit t (rest.foldl min a)
  else if icmp builtin "max" then
    match args with
    | [] => throw .assertFail
    | a :: rest => return get_int_lit t (rest.foldl max a)
  else if icmp builtin "mod" then
    let b ← arg args 1
    if b = 0 then throw .divByZero
    else return get_int_lit t (((← arg args 0).natAbs % b.natAbs : Nat) : Int)
  else if icmp builtin "rem" then
    let b ← arg args 1
    if b = 0 then throw .divByZero
    else return get_int_lit t (Int.tmod (← arg args 0) b)
  else
    return t

/-- `eval_fcall_enum` (lines 248‑270); note `min`/`max` build an *integer*
    literal from the enumeration position, as the source does. -/
def eval_fcall_enum (t : tree) (builtin : ident) (args : List Nat) :
    Except efatal tree := do
  if icmp builtin "min" then
    match args with
    | [] => throw .assertFail
    | a :: rest => return get_int_lit t ((rest.foldl min a : Nat) : Int)
  else if icmp builtin "max" then
    match args with
    | [] => throw .assertFail
    | a :: rest => return get_int_lit t ((rest.foldl max a : Nat) : Int)
  else if icmp builtin "eq" then
    return get_bool_lit t ((← arg args 0) == (← arg args 1))
  else if icmp builtin "neq" then
    return get_bool_lit t ((← arg args 0) != (← arg args 1))
  else
    return t

/-- `eval_fcall_universal` (lines 272‑288): folds the three universal
    mixed real/integer operators, and otherwise calls
    `fatal_at(tree_loc(t), "universal expression cannot be evaluated")`,
    aborting the process. -/
def eval_fcall_universal (t : tree) (builtin : ident) (targs : List tree) :
    Except efatal tree := do
  let a0 ← arg targs 0
  let a1 ← arg targs 1
  if icmp builtin "mulri" && (folded_real a0).isSome
      && (folded_int a1).isSome then
    return get_real_lit t (((folded_real a0).getD 0)
      * (((folded_int a1).getD 0 : Int) : Rat))
  else if icmp builtin "mulir" && (folded_real a1).isSome
      && (folded_int a0).isSome then
    return get_real_lit t (((folded_real a1).getD 0)
      * (((folded_int a0).getD 0 : Int) : Rat))
  else if icmp builtin "divri" && (folded_real a0).isSome
      && (folded_int a1).isSome then
    return get_real_lit t (((folded_real a0).getD 0)
      / (((folded_int a1).getD 0 : Int) : Rat))
  else
    throw .fatalAt

/-- `eval_fcall_str` (lines 290‑312): element-wise equality of string
    literals; `tree_chars` on a non-string node asserts. -/
def eval_fcall_str (t : tree) (builtin : ident) (targs : List tree) :
    Except efatal tree := do
  if icmp builtin "aeq" || icmp builtin "aneq" then
    let a0 ← arg targs 0
    let a1 ← arg targs 1
    match a0, a1 with
    | .litString _ cs0, .litString _ cs1 =>
        let invert := icmp builtin "aneq"
        if cs0 = cs1 then return get_bool_lit t (!invert)
        else return get_bool_lit t invert
    | _, _ => throw .assertFail
  else
    return t

/-- Bind each formal port name to its evaluated actual (lines 363‑364). -/
def bind_ports : List tree → List tree → vtable → Except efatal vtable
  | [], _, v => return v
  | _, [], v => return v
  | port :: ports, a :: as_, v => do
      match tree_ident port with
      | some name => do
          let v' ← vtable_bind v name a
          bind_ports ports as_ v'
      | none => throw .assertFail

/-- The initial evaluation state of `eval` (lines 662‑667). -/
def vtable_init : vtable := { top := [], failed := false, exit := none, result := none }

mutual

/-- `eval_expr` (lines 452‑464). -/
def eval_expr : Nat → tree → vtable → Except efatal (tree × vtable)
  | 0, _, _ => throw .outOfFuel
  | fuel + 1, t, v =>
      match t with
      | .fcall .. => eval_fcall fuel t v
      | .ref .. => eval_ref fuel t v
      | .typeConv .. => eval_type_conv fuel t v
      | _ => return (t, v)

/-- `eval_ref` (lines 417‑426). -/
def eval_ref : Nat → tree → vtable → Except efatal (tree × vtable)
  | 0, _, _ => throw .outOfFuel
  | fuel + 1, t, v =>
      match t with
      | .ref _ decl =>
          match decl with
          | .constDecl _ _ (some value) => eval_expr fuel value v
          | .constDecl _ _ none => throw .assertFail
          | _ =>
              match tree_ident decl with
              | some name =>
                  match vtable_get v name with
                  | some binding => return (binding, v)
                  | none => return (t, v)
              | none => throw .assertFail
      | _ => throw .assertFail

/-- `eval_type_conv` (lines 428‑450); the real→integer direction is the C
    cast `(int)l`, truncation toward zero at 32 bits. -/
def eval_type_conv : Nat → tree → vtable → Except efatal (tree × vtable)
  | 0, _, _ => throw .outOfFuel
  | fuel + 1, t, v =>
      match t with
      | .typeConv oty params => do
          let p0 ← arg params 0
          let (value, v₁) ← eval_expr fuel p0.value v
          match tree_type value, oty with
          | some from_, some to_ => do
              match from_, to_ with
              | .tInteger _, .tReal _ =>
                  match folded_int value with
                  | some l => return (get_real_lit t (l : Rat), v₁)
                  | none => return (t, v₁)
              | .tReal _, .tInteger _ =>
                  match folded_real value with
                  | some l => return (get_int_lit t (wrap32 (rat_trunc l)), v₁)
                  | none => return (t, v₁)
              | _, _ => return (t, v₁)
          | _, _ => throw .assertFail
      | _ => throw .assertFail

/-- The argument loop of the user-defined-function path of `eval_fcall`
    (lines 352‑360): evaluate the first `n` actuals in order, stopping,
    as the source does, at the first one that is not `folded`. -/
def eval_user_args : Nat → List paramT → Nat → vtable →
    Except efatal (Option (List tree) × vtable)
  | 0, _, _, _ => throw .outOfFuel
  | _ + 1, _, 0, v => return (some [], v)
  | fuel + 1, ps, n + 1, v =>
      match ps with
      | [] => throw .assertFail
      | p :: rest => do
          let (pv, v₁) ← eval_expr fuel p.value v
          if folded pv then do
            let (res, v₂) ← eval_user_args fuel rest n v₁
            return (res.map (pv :: ·), v₂)
          else
            return (none, v₁)

/-- Evaluate every actual of a built-in call (lines 375‑379). -/
def eval_builtin_args : Nat → List paramT → vtable →
    Except efatal (List tree × vtable)
  | 0, _, _ => throw .outOfFuel
  | _ + 1, [], v => return ([], v)
  | fuel + 1, p :: rest, v => do
      let (pv, v₁) ← eval_expr fuel p.value v
      let (pvs, v₂) ← eval_builtin_args fuel rest v₁
      return (pv :: pvs, v₂)

/-- `eval_func_body` (lines 325‑335): bind initialised local variables,
    then run the statement list. -/
def eval_func_body : Nat → List tree → List tree → vtable →
    Except efatal vtable
  | 0, _, _, _ => throw .outOfFuel
  | fuel + 1, decls, stmts, v => do
      let v' ← eval_body_decls fuel decls v
      eval_stmts fuel stmts v'

/-- The declaration loop of `eval_func_body` (lines 327‑332). -/
def eval_body_decls : Nat → List tree → vtable → Except efatal vtable
  | 0, _, _ => throw .outOfFuel
  | _ + 1, [], v => return v
  | fuel + 1, d :: rest, v =>
      match d with
      | .varDecl _ name (some value) => do
          let (val, v₁) ← eval_expr fuel value v
          let v₂ ← vtable_bind v₁ name val
          eval_body_decls fuel rest v₂
      | _ => eval_body_decls fuel rest v

/-- `eval_fcall` (lines 337‑415). -/
def eval_fcall : Nat → tree → vtable → Except efatal (tree × vtable)
  | 0, _, _ => throw .outOfFuel
  | fuel + 1, t, v =>
      match t with
      | .fcall oty decl ps =>
          match decl with
          | .funcDecl builtin? _ _ =>
              match builtin? with
              | none => return (t, v)
              | some builtin => eval_fcall_builtin fuel t builtin ps v
          | .funcBody builtin? _ ports decls stmts =>
              match builtin? with
              | none => do
                  match oty with
                  | none => throw .assertFail
                  | some tyt =>
                    if type_is_array tyt then return (t, v)
                    else do
                      let (argsOpt, v₁) ← eval_user_args fuel ps ports.length v
                      match argsOpt with
                      | none => return (t, v₁)
                      | some args => do
                          let v₂ := vtable_push v₁
                          let v₃ ← bind_ports ports args v₂
                          let v₄ ← eval_func_body fuel decls stmts v₃
                          let result := v₄.result
                          let v₅ ← vtable_pop v₄
                          match result with
                          | some r =>
                              if folded r then return (r, v₅) else return (t, v₅)
                          | none => return (t, v₅)
              | some builtin => eval_fcall_builtin fuel t builtin ps v
          | _ => throw .assertFail
      | _ => throw .assertFail

/-- The built-in dispatch of `eval_fcall` (lines 373‑414): evaluate all
    actuals, route universal operators, then try integer, logical, real,
    enumeration, string in that order. -/
def eval_fcall_builtin : Nat → tree → ident → List paramT → vtable →
    Except efatal (tree × vtable)
  | 0, _, _, _, _ => throw .outOfFuel
  | fuel + 1, t, builtin, ps, v => do
      let (targs, v₁) ← eval_builtin_args fuel ps v
      if icmp builtin "mulri" || icmp builtin "mulir"
          || icmp builtin "divri" then do
        let r ← eval_fcall_universal t builtin targs
        return (r, v₁)
      else
        let can_fold_int := targs.all fun a => (folded_int a).isSome
        let can_fold_log := targs.all fun a => (folded_bool a).isSome
        let can_fold_real := targs.all fun a => (folded_real a).isSome
        let can_fold_enum := targs.all fun a => (folded_enum a).isSome
        let can_fold_str := targs.all fun a =>
          match a with
          | .litString _ _ => true
          | _ => false
        if can_fold_int then do
          let r ← eval_fcall_int t builtin (targs.filterMap folded_int)
          return (r, v₁)
        else if can_fold_log then do
          let r ← eval_fcall_log t builtin (targs.filterMap folded_bool)
          return (r, v₁)
        else if can_fold_real then do
          let r ← eval_fcall_real t builtin (targs.filterMap folded_real)
          return (r, v₁)
        else if can_fold_enum then do
          let r ← eval_fcall_enum t builtin (targs.filterMap folded_enum)
          return (r, v₁)
        else if can_fold_str then do
          let r ← eval_fcall_str t builtin targs
          return (r, v₁)
        else
          return (t, v₁)

/-- `eval_stmts` (lines 314‑323): run statements until `failed`, `result`
    or `exit` is set. -/
def eval_stmts : Nat → List tree → vtable → Except efatal vtable
  | 0, _, _ => throw .outOfFuel
  | _ + 1, [], v => return v
  | fuel + 1, s :: rest, v => do
      let v₁ ← eval_stmt fuel s v
      if v₁.failed || v₁.result.isSome || v₁.exit.isSome then return v₁
      else eval_stmts fuel rest v₁

/-- `eval_return` (lines 466‑471). -/
def eval_return : Nat → tree → vtable → Except efatal vtable
  | 0, _, _ => throw .outOfFuel
  | fuel + 1, t, v =>
      match t with
      | .sreturn (some value) =>
          match v.result with
          | some _ => throw .assertFail
          | none => do
              let (r, v₁) ← eval_expr fuel value v
              return { v₁ with result := some r }
      | .sreturn none => throw .assertFail
      | _ => throw .assertFail

/-- `eval_if` (lines 473‑484). -/
def eval_if : Nat → tree → vtable → Except efatal vtable
  | 0, _, _ => throw .outOfFuel
  | fuel + 1, t, v =>
      match t with
      | .sif cond stmts elseStmts => do
          let (c, v₁) ← eval_expr fuel cond v
          match folded_bool c with
          | none => return { v₁ with failed := true }
          | some b =>
              if b then eval_stmts fuel stmts v₁
              else eval_stmts fuel elseStmts v₁
      | _ => throw .assertFail

/-- `eval_case` (lines 486‑521). -/
def eval_case : Nat → tree → vtable → Except efatal vtable
  | 0, _, _ => throw .outOfFuel
  | fuel + 1, t, v =>
      match t with
      | .scase value assocs =>
          match tree_type value with
          | none => throw .assertFail
          | some vty =>
            if type_is_array vty then return { v with failed := true }
            else do
              let (vt, v₁) ← eval_expr fuel value v
              match folded_int vt with
              | none => return { v₁ with failed := true }
              | some value_int => eval_case_assocs fuel assocs value_int v₁
      | _ => throw .assertFail

/-- The association loop of `eval_case` (lines 497‑520); note that an
    `others` branch executes and the loop then *continues*. -/
def eval_case_assocs : Nat → List assocT → Int → vtable →
    Except efatal vtable
  | 0, _, _, _ => throw .outOfFuel
  | _ + 1, [], _, v => return v
  | fuel + 1, a :: rest, value_int, v =>
      match a with
      | .anamed name stmt => do
          let (cmp_t, v₁) ← eval_expr fuel name v
          match folded_int cmp_t with
          | none => return { v₁ with failed := true }
          | some cmp =>
              if cmp = value_int then eval_stmt fuel stmt v₁
              else eval_case_assocs fuel rest value_int v₁
      | .aothers stmt => do
          let v₁ ← eval_stmt fuel stmt v
          eval_case_assocs fuel rest value_int v₁
      | _ => throw .assertFail

/-- `eval_while` (lines 523‑551).  The returned `Nat` is a ghost count of
    the number of body executions this activation performed; the source
    computes the same information in its `iters` counter. -/
def eval_while : Nat → tree → vtable → Except efatal (vtable × Nat)
  | 0, _, _ => throw .outOfFuel
  | fuel + 1, t, v =>
      match t with
      | .swhile label cond stmts => eval_while_loop fuel label cond stmts 0 v
      | _ => throw .assertFail

/-- The iteration of `eval_while`: condition, iteration-limit check, body,
    exit handling. -/
def eval_while_loop : Nat → ident → Option tree → List tree → Nat →
    vtable → Except efatal (vtable × Nat)
  | 0, _, _, _, _, _ => throw .outOfFuel
  | fuel + 1, label, cond, stmts, iters, v =>
      if v.result.isSome then return (v, 0)
      else
        match cond with
        | some c => do
            let (ct, v₁) ← eval_expr fuel c v
            match folded_bool ct with
            | none => return ({ v₁ with failed := true }, 0)
            | some b => eval_while_step fuel label cond stmts iters b v₁
        | none => eval_while_step fuel label cond stmts iters true v

/-- The remainder of one `eval_while` iteration, after the condition has
    been evaluated to `cond_b` (lines 535‑549). -/
def eval_while_step : Nat → ident → Option tree → List tree → Nat →
    Bool → vtable → Except efatal (vtable × Nat)
  | 0, _, _, _, _, _, _ => throw .outOfFuel
  | fuel + 1, label, cond, stmts, iters, cond_b, v =>
      if !cond_b || v.failed then return (v, 0)
      else if iters + 1 = MAX_ITERS then
        return ({ v with failed := true }, 0)
      else do
        let v₂ ← eval_stmts fuel stmts v
        match v₂.exit with
        | some e =>
            if e == label then return ({ v₂ with exit := none }, 1)
            else return (v₂, 1)
        | none => do
            let (v₃, n) ← eval_while_loop fuel label cond stmts
              (iters + 1) v₂
            return (v₃, n + 1)

/-- `eval_for` (lines 553‑583), including the source's null-range test
    `(kind == TO && left > right) || (kind == DOWNTO && right < left)`. -/
def eval_for : Nat → tree → vtable → Except efatal vtable
  | 0, _, _ => throw .outOfFuel
  | fuel + 1, t, v =>
      match t with
      | .sfor _ decls rng stmts =>
          if rng.kind ≠ .rTo ∧ rng.kind ≠ .rDownto then
            return { v with failed := true }
          else do
            let (left_t, v₁) ← eval_expr fuel rng.left v
            let (right_t, v₂) ← eval_expr fuel rng.right v₁
            match folded_int left_t, folded_int right_t with
            | some lefti, some righti =>
                if (rng.kind = .rTo ∧ lefti > righti)
                    ∨ (rng.kind = .rDownto ∧ righti < lefti) then
                  return v₂
                else do
                  match decls with
                  | [] => throw .assertFail
                  | idecl :: _ =>
                      match tree_ident idecl with
                      | none => throw .assertFail
                      | some name =>
                          eval_for_loop fuel name left_t stmts rng.kind
                            lefti righti v₂
            | _, _ => return { v₂ with failed := true }
      | _ => throw .assertFail

/-- The do-while body of `eval_for` (lines 575‑582). -/
def eval_for_loop : Nat → ident → tree → List tree → rkind → Int → Int →
    vtable → Except efatal vtable
  | 0, _, _, _, _, _, _, _ => throw .outOfFuel
  | fuel + 1, name, left_t, stmts, kind, ival, righti, v => do
      let v₁ ← vtable_bind v name (get_int_lit left_t ival)
      let v₂ ← eval_stmts fuel stmts v₁
      if ival = righti then return v₂
      else
        let ival' := ival + (if kind = .rTo then 1 else -1)
        if v₂.result.isNone then
          eval_for_loop fuel name left_t stmts kind ival' righti v₂
        else return v₂

/-- `eval_var_assign` (lines 585‑597). -/
def eval_var_assign : Nat → tree → vtable → Except efatal vtable
  | 0, _, _ => throw .outOfFuel
  | fuel + 1, t, v =>
      match t with
      | .svarAssign target value =>
          match target with
          | .ref _ decl => do
              let (updated, v₁) ← eval_expr fuel value v
              if folded updated then
                match tree_ident decl with
                | some name => vtable_bind v₁ name updated
                | none => throw .assertFail
              else return { v₁ with failed := true }
          | _ => return { v with failed := true }
      | _ => throw .assertFail

/-- `eval_block` (lines 599‑603): asserts the block has no declarations. -/
def eval_block : Nat → tree → vtable → Except efatal vtable
  | 0, _, _ => throw .outOfFuel
  | fuel + 1, t, v =>
      match t with
      | .sblock decls stmts =>
          match decls with
          | [] => eval_stmts fuel stmts v
          | _ :: _ => throw .assertFail
      | _ => throw .assertFail

/-- `eval_exit` (lines 605‑617). -/
def eval_exit : Nat → tree → vtable → Except efatal vtable
  | 0, _, _ => throw .outOfFuel
  | fuel + 1, t, v =>
      match t with
      | .sexit label2 cond =>
          match cond with
          | some c => do
              let (ct, v₁) ← eval_expr fuel c v
              match folded_bool ct with
              | none => return { v₁ with failed := true }
              | some b =>
                  if b then return { v₁ with exit := some label2 }
                  else return v₁
          | none => return { v with exit := some label2 }
      | _ => throw .assertFail

/-- `eval_stmt` (lines 619‑650); an unhandled statement kind is
    `eval_error`, which sets `failed`. -/
def eval_stmt : Nat → tree → vtable → Except efatal vtable
  | 0, _, _ => throw .outOfFuel
  | fuel + 1, t, v =>
      match t with
      | .sreturn .. => eval_return fuel t v
      | .swhile .. => do
          let (v', _) ← eval_while fuel t v
          return v'
      | .sfor .. => eval_for fuel t v
      | .sif .. => eval_if fuel t v
      | .svarAssign .. => eval_var_assign fuel t v
      | .sblock .. => eval_block fuel t v
      | .sexit .. => eval_exit fuel t v
      | .scase .. => eval_case fuel t v
      | _ => return { v with failed := true }

end

/-- `eval` (lines 652‑670): the public entry point.  Asserts the node is a
    function call, runs `eval_fcall` on a fresh state, and returns the
    original call if `failed` was set. -/
def eval (fuel : Nat) (fc : tree) : Except efatal tree :=
  match fc with
  | .fcall .. => do
      let (r, vt) ← eval_fcall fuel fc vtable_init
      return if vt.failed then fc else r
  | _ => throw .assertFail

/-! ## The bounds / choice checker (`part_001`) -/

/-- Lift an accessor that asserts in C on a missing item. -/
def oassert : Option α → Except efatal α
  | some a => return a
  | none => throw .assertFail

/-- Lift `assume_int`-style lookups, which call `fatal_at` on failure. -/
def ofatal : Option α → Except efatal α
  | some a => return a
  | none => throw .fatalAt

def bnd.cons : bnd → Option ty
  | .bInt c _ => c
  | .bReal c _ => c
  | .bEnum c _ _ => c
  | .bOther c => c

/-- `tree_kind(·) == T_LITERAL` on a type-dimension bound. -/
def bnd.isLiteral : bnd → Bool
  | .bInt _ _ => true
  | .bReal _ _ => true
  | _ => false

def assocT.value : assocT → tree
  | .apos v => v
  | .anamed _ v => v
  | .arange _ v => v
  | .aothers v => v

/-- `bounds_check_string_literal` (lines 41‑51). -/
def bounds_check_string_literal (oty : Option ty) (chars : List ident) :
    Except efatal Nat := do
  let type ← oassert oty
  if type_is_unconstrained type then return 0
  else do
    let d ← oassert (type_dim type 0)
    match foldedB_length d with
    | some expect => return (if expect ≠ (chars.length : Int) then 1 else 0)
    | none => return 0

/-- `bounds_check_literal` (lines 53‑62). -/
def bounds_check_literal : tree → Except efatal Nat
  | .litString oty chars => bounds_check_string_literal oty chars
  | .litInt _ _ => return 0
  | .litReal _ _ => return 0
  | .litOther _ => return 0
  | _ => throw .assertFail

/-- The per-dimension length comparison of `bounds_check_call_args`
    (lines 89‑118).  Note the source computes its `f_len` from the
    *actual* range and its `a_len` from the *formal* range; the
    comparison is symmetric, so only the error message is affected. -/
def arg_dims_loop (ftype atype : ty) : Nat → Nat → Except efatal Nat
  | 0, _ => return 0
  | n + 1, j => do
      let formal_r ← oassert (type_dim ftype j)
      let actual_r ← oassert (type_dim atype j)
      let e :=
        match foldedB_int formal_r.left, foldedB_int formal_r.right,
            foldedB_int actual_r.left, foldedB_int actual_r.right with
        | some f_left, some f_right, some a_left, some a_right =>
            let f_len := wrap32 (if actual_r.kind = .rTo
              then a_right - a_left + 1 else a_left - a_right + 1)
            let a_len := wrap32 (if formal_r.kind = .rTo
              then f_right - f_left + 1 else f_left - f_right + 1)
            if f_len ≠ a_len then 1 else 0
        | _, _, _, _ => 0
      let es ← arg_dims_loop ftype atype n (j + 1)
      return e + es

/-- One positional parameter of `bounds_check_call_args` (lines 71‑145). -/
def bounds_check_call_arg (ports : List tree) (p : paramT) :
    Except efatal Nat := do
  match p.sub with
  | .pNamed => throw .assertFail
  | .pPos => do
      let port ← oassert (ports.get? p.pos)
      let value := p.value
      let ftype ← oassert (tree_type port)
      let atype ← oassert (tree_type value)
      if type_is_array ftype then
        if type_is_unconstrained atype || type_is_unconstrained ftype then
          return 0
        else
          arg_dims_loop ftype atype (type_dims ftype) 0
      else if type_is_integer ftype then
        match folded_int value with
        | none => return 0
        | some ival => do
            let r ← oassert (type_dim ftype 0)
            match foldedB_bounds r with
            | none => return 0
            | some lh =>
                return (if ival < lh.1 ∨ ival > lh.2 then 1 else 0)
      else return 0

/-- The parameter loop of `bounds_check_call_args`: runs while both the
    parameter index and the port count allow (line 71). -/
def args_loop (ports : List tree) : List paramT → Nat → Except efatal Nat
  | _, 0 => return 0
  | [], _ => return 0
  | p :: rest, n + 1 => do
      let e ← bounds_check_call_arg ports p
      let es ← args_loop ports rest n
      return e + es

/-- `bounds_check_call_args` (lines 64‑148). -/
def bounds_check_call_args (t : tree) : Except efatal Nat := do
  match t with
  | .fcall _ decl ps | .pcall decl ps => do
      let ports ←
        match decl with
        | .funcDecl _ _ ports => pure ports
        | .funcBody _ _ ports _ _ => pure ports
        | _ => throw .assertFail
      args_loop ports ps ports.length
  | _ => throw .assertFail

/-- The index loop of `bounds_check_array_ref` (lines 163‑192); returns
    `(errors, nstatic)` walking dimension `i` upward. -/
def array_ref_loop (value_type : ty) : List paramT → Nat →
    Except efatal (Nat × Nat)
  | [], _ => return (0, 0)
  | p :: rest, i => do
      match folded_int p.value with
      | none => array_ref_loop value_type rest (i + 1)
      | some index => do
          let b ← oassert (type_dim value_type i)
          if b.kind ≠ .rTo ∧ b.kind ≠ .rDownto then
            array_ref_loop value_type rest (i + 1)
          else
            match foldedB_int b.left, foldedB_int b.right with
            | some left, some right => do
                let low := if b.kind = .rTo then left else right
                let high := if b.kind = .rTo then right else left
                let (e, ns) ← array_ref_loop value_type rest (i + 1)
                if index < low ∨ index > high then return (e + 1, ns)
                else return (e, ns + 1)
            | _, _ => array_ref_loop value_type rest (i + 1)

/-- `bounds_check_array_ref` (lines 150‑196): returns the (possibly
    `elide_bounds`-marked) node together with its error count. -/
def bounds_check_array_ref (t : tree) : Except efatal (tree × Nat) := do
  match t with
  | .arrayRef oty value ps elide =>
      match tree_type value with
      | none => return (t, 0)
      | some value_type =>
          if type_is_unconstrained value_type then return (t, 0)
          else do
            let (e, nstatic) ← array_ref_loop value_type ps 0
            if nstatic = ps.length then
              return (.arrayRef oty value ps true, e)
            else
              return (.arrayRef oty value ps elide, e)
  | _ => throw .assertFail

/-- `bounds_check_array_slice` (lines 198‑240). -/
def bounds_check_array_slice (t : tree) : Except efatal Nat := do
  match t with
  | .arraySlice _ value rng =>
      match tree_type value with
      | none => return 0
      | some value_type =>
          if type_is_unconstrained value_type then return 0
          else do
            let b ← oassert (type_dim value_type 0)
            if b.kind ≠ .rTo ∧ b.kind ≠ .rDownto then return 0
            else if rng.kind ≠ .rTo ∧ rng.kind ≠ .rDownto then return 0
            else
              let left_error : Bool :=
                match foldedB_int b.left, folded_int rng.left with
                | some b_left, some r_left =>
                    decide ((b.kind = .rTo ∧ r_left < b_left)
                      ∨ (b.kind = .rDownto ∧ r_left > b_left))
                | _, _ => false
              let right_error : Bool :=
                match foldedB_int b.right, folded_int rng.right with
                | some b_right, some r_right =>
                    decide ((b.kind = .rTo ∧ r_right > b_right)
                      ∨ (b.kind = .rDownto ∧ r_right < b_right))
                | _, _ => false
              return (if left_error || right_error then 1 else 0)
  | _ => throw .assertFail

/-- `bounds_within` (lines 242‑254). -/
def bounds_within (i : tree) (low high : Int) : Nat :=
  match folded_int i with
  | some f => if f < low ∨ f > high then 1 else 0
  | none => 0

/-- The association loop of `bounds_check_aggregate` (lines 297‑331):
    `(errors, nelems, known_elem_count)`. -/
def aggregate_elems_loop (low high : Int) : List assocT →
    (Nat × Int × Bool)
  | [] => (0, 0, true)
  | a :: rest =>
      let (e, n, k) := aggregate_elems_loop low high rest
      match a with
      | .anamed name _ => (bounds_within name low high + e, n + 1, k)
      | .arange rng _ =>
          let e₁ := bounds_within rng.left low high
          let e₂ := bounds_within rng.right low high
          match folded_length rng with
          | some len => (e₁ + e₂ + e, n + len, k)
          | none => (e₁ + e₂ + e, n, false)
      | .aothers _ => (e, n, false)
      | .apos _ => (e, n + 1, k)

/-- The sub-aggregate length comparison of `bounds_check_aggregate`
    (lines 347‑364); an unfoldable length breaks out of the loop. -/
def sub_aggregate_loop : List assocT → Int → Except efatal Nat
  | [], _ => return 0
  | a :: rest, len => do
      let vty ← oassert (tree_type a.value)
      let d ← oassert (type_dim vty 0)
      match foldedB_length d with
      | none => return 0
      | some this_length =>
          if len = -1 then sub_aggregate_loop rest this_length
          else if len ≠ this_length then do
            let es ← sub_aggregate_loop rest len
            return 1 + es
          else sub_aggregate_loop rest len

/-- The tail of `bounds_check_aggregate` once the tightest index bounds
    `(low, high)` are known (lines 292‑364). -/
def bounds_check_aggregate_tail (type : ty) (unconstr : Bool)
    (assocs : List assocT) (low high : Int) : Except efatal Nat := do
  if low = -INT64_MAX ∧ high = INT64_MAX then return 0
  else do
    let (e₁, nelems, known) := (aggregate_elems_loop low high assocs :
      Nat × Int × Bool)
    let d0 ← oassert (type_dim type 0)
    let e₂ :=
      if known then
        match foldedB_length d0 with
        | some expect => if expect ≠ nelems then 1 else 0
        | none => 0
      else 0
    let e₃ ←
      if type_dims type > 1 ∧ unconstr then sub_aggregate_loop assocs (-1)
      else pure 0
    return e₁ + e₂ + e₃

/-- `bounds_check_aggregate` (lines 256‑365). -/
def bounds_check_aggregate (t : tree) : Except efatal Nat := do
  match t with
  | .aggregate oty unconstr assocs => do
      let type ← oassert oty
      if !type_is_array type then return 0
      else
        match type with
        | .tUarray _ _ => throw .assertFail
        | _ => do
          let type_r ← oassert (type_dim type 0)
          if unconstr then
            let base := type_base_recur type
            match base with
            | .tUarray ics _ => do
                let index ← oassert (ics.get? 0)
                match index with
                | .tEnum _ _ => return 0
                | _ => do
                    let base_r ← oassert (type_dim index 0)
                    if base_r.left.isLiteral && base_r.right.isLiteral then do
                      let lh ← ofatal (range_bounds base_r)
                      bounds_check_aggregate_tail type unconstr assocs lh.1 lh.2
                    else
                      bounds_check_aggregate_tail type unconstr assocs
                        (-INT64_MAX) INT64_MAX
            | _ => throw .assertFail
          else
            if type_r.left.isLiteral && type_r.right.isLiteral then do
              let lh ← ofatal (range_bounds type_r)
              bounds_check_aggregate_tail type unconstr assocs lh.1 lh.2
            else
              bounds_check_aggregate_tail type unconstr assocs
                (-INT64_MAX) INT64_MAX
  | _ => throw .assertFail

/-- The dimension loop of `bounds_check_decl` (lines 374‑409). -/
def decl_dims_loop (type : ty) : Nat → Nat → Except efatal Nat
  | 0, _ => return 0
  | n + 1, i => do
      let dim ← oassert (type_dim type i)
      let cons ← oassert dim.left.cons
      match cons with
      | .tEnum _ _ => decl_dims_loop type n (i + 1)
      | _ => do
          let bounds ← oassert (type_dim cons 0)
          let e :=
            match foldedB_int dim.left, foldedB_int bounds.left,
                foldedB_int dim.right, foldedB_int bounds.right with
            | some dim_left, some bounds_left, some dim_right,
                some bounds_right =>
                let is_null :=
                  (dim.kind = .rTo ∧ dim_left > dim_right)
                  ∨ (dim.kind = .rDownto ∧ dim_left < dim_right)
                if is_null then 0
                else
                  (if dim_left < bounds_left then 1 else 0)
                  + (if dim_right > bounds_right then 1 else 0)
            | _, _, _, _ => 0
          let es ← decl_dims_loop type n (i + 1)
          return e + es

/-- `type_kind(t) == T_UARRAY` test. -/
def ty.isUarrayKind : ty → Bool
  | .tUarray _ _ => true
  | _ => false

/-- `bounds_check_decl` (lines 367‑411). -/
def bounds_check_decl (t : tree) : Except efatal Nat := do
  let type ← oassert (tree_type t)
  if type_is_array type && !type.isUarrayKind then
    decl_dims_loop type (type_dims type) 0
  else return 0

/-- `bounds_check_assignment` (lines 413‑508): the per-dimension array
    length comparison. -/
def assign_dims_loop (target_type value_type : ty) : Nat → Nat →
    Except efatal Nat
  | 0, _ => return 0
  | n + 1, i => do
      let td ← oassert (type_dim target_type i)
      let vd ← oassert (type_dim value_type i)
      let e :=
        match foldedB_length td, foldedB_length vd with
        | some target_w, some value_w => if target_w ≠ value_w then 1 else 0
        | _, _ => 0
      let es ← assign_dims_loop target_type value_type n (i + 1)
      return e + es

/-- `bounds_check_assignment` (lines 413‑508). -/
def bounds_check_assignment (target value : tree) : Except efatal Nat := do
  let target_type ← oassert (tree_type target)
  let value_type ← oassert (tree_type value)
  let check_array_length :=
    type_is_array target_type
    && !type_is_unconstrained target_type
    && !type_is_unconstrained value_type
  let e₁ ←
    if check_array_length then
      assign_dims_loop target_type value_type (type_dims target_type) 0
    else pure 0
  let check_scalar_subtype_range :=
    !type_is_array target_type
    && !type_is_record target_type
    && target_type.isSubtypeKind
  if check_scalar_subtype_range then do
    let r ← oassert (type_dim target_type 0)
    let e₂ :=
      match folded_int value with
      | some ivalue =>
          match foldedB_int r.left, foldedB_int r.right with
          | some left, some right =>
              match r.kind with
              | .rTo => if ivalue < left ∨ ivalue > right then 1 else 0
              | .rDownto => if ivalue > left ∨ ivalue < right then 1 else 0
              | .rOther => 0
          | _, _ => 0
      | none => 0
    let e₃ ←
      match folded_enum value with
      | some pos =>
          match foldedB_enum r.left, foldedB_enum r.right with
          | some left, some right => do
              let value_base := type_base_recur value_type
              let target_base := type_base_recur target_type
              let _ ← oassert (type_enum_literal value_base pos)
              let _ ← oassert (type_enum_literal target_base left)
              let _ ← oassert (type_enum_literal target_base right)
              match r.kind with
              | .rTo => pure (if pos < left ∨ pos > right then 1 else 0)
              | .rDownto => pure (if pos > left ∨ pos < right then 1 else 0)
              | .rOther => pure 0
          | _, _ => pure 0
      | none => pure 0
    return e₁ + e₂ + e₃
  else
    return e₁

/-- `bounds_check_signal_assign` (lines 510‑517); waveform entries are
    modelled by their value expressions. -/
def signal_assign_loop (target : tree) : List tree → Except efatal Nat
  | [] => return 0
  | w :: rest => do
      let e ← bounds_check_assignment target w
      let es ← signal_assign_loop target rest
      return e + es

/-- `bounds_check_var_assign` (lines 519‑522). -/
def bounds_check_var_assign (target value : tree) : Except efatal Nat :=
  bounds_check_assignment target value

/-- `bounds_case_cover` (lines 524‑564): insert `[low, high]` into the
    sorted covered-interval list; an overlap reports one error and leaves
    the list unchanged; adjacency extends an existing interval. -/
def bounds_case_cover : List (Int × Int) → Int → Int →
    (List (Int × Int) × Nat)
  | [], low, high => ([(low, high)], 0)
  | (ilow, ihigh) :: rest, low, high =>
      if ilow ≤ high then
        if low ≤ ihigh then ((ilow, ihigh) :: rest, 1)
        else if high = ilow - 1 then ((low, ihigh) :: rest, 0)
        else if low = ihigh + 1 then ((ilow, high) :: rest, 0)
        else
          let (rest', e) := bounds_case_cover rest low high
          ((ilow, ihigh) :: rest', e)
      else ((low, high) :: (ilow, ihigh) :: rest, 0)

/-- `bounds_fmt_case_missing` (lines 566‑572). -/
def bounds_fmt_case_missing (low high : Int) : String :=
  if low = high then s!"\n    {low}"
  else s!"\n    {low} to {high}"

/-- The choice loop of the integer branch of `bounds_check_case`
    (lines 652‑687): `(have_others, covered, errors)`.  A positional
    association leaves the C locals at their `INT64_MIN`/`INT64_MAX`
    sentinels, which are then necessarily out of bounds. -/
def bounds_case_int_loop (tlow thigh : Int) : List assocT → Bool →
    List (Int × Int) → Nat → Except efatal (Bool × List (Int × Int) × Nat)
  | [], ho, cov, errs => return (ho, cov, errs)
  | a :: rest, ho, cov, errs => do
      match a with
      | .aothers _ => bounds_case_int_loop tlow thigh rest true cov errs
      | .anamed name _ => do
          let lo ← ofatal (assume_int name)
          if lo < tlow ∨ lo > thigh then
            bounds_case_int_loop tlow thigh rest ho cov (errs + 1)
          else
            let (cov', e) := bounds_case_cover cov lo lo
            bounds_case_int_loop tlow thigh rest ho cov' (errs + e)
      | .arange rng _ => do
          if rng.kind ≠ .rTo then throw .assertFail
          else do
            let lo ← ofatal (assume_int rng.left)
            let hi ← ofatal (assume_int rng.right)
            if lo < tlow ∨ hi > thigh then
              bounds_case_int_loop tlow thigh rest ho cov (errs + 1)
            else
              let (cov', e) := bounds_case_cover cov lo hi
              bounds_case_int_loop tlow thigh rest ho cov' (errs + e)
      | .apos _ =>
          if INT64_MIN < tlow ∨ INT64_MAX > thigh then
            bounds_case_int_loop tlow thigh rest ho cov (errs + 1)
          else
            let (cov', e) := bounds_case_cover cov INT64_MIN INT64_MAX
            bounds_case_int_loop tlow thigh rest ho cov' (errs + e)

/-- The missing-interval walk of the integer branch (lines 695‑711). -/
def bounds_case_missing_walk : List (Int × Int) → Int → Int →
    List (Int × Int)
  | [], walk, thigh => if walk ≠ thigh + 1 then [(walk, thigh)] else []
  | (lo, hi) :: rest, walk, thigh =>
      (if lo ≠ walk then [(walk, lo - 1)] else [])
        ++ bounds_case_missing_walk rest (hi + 1) thigh

/-- The text the missing intervals contribute to the single diagnostic,
    one line per interval (lines 566‑572 and 697‑711). -/
def bounds_case_missing_text (missing : List (Int × Int)) : String :=
  String.join (missing.map fun p => bounds_fmt_case_missing p.1 p.2)

/-- The integer branch of `bounds_check_case` (lines 645‑717): after the
    choice loop, a non-`others` case statement reports a single error if
    and only if the missing-interval walk found anything. -/
def bounds_check_case_int (tlow thigh : Int) (assocs : List assocT) :
    Except efatal Nat := do
  let (ho, cov, errs) ← bounds_case_int_loop tlow thigh assocs false [] 0
  if ho then return errs
  else
    let missing := bounds_case_missing_walk cov tlow thigh
    return errs + (if missing.isEmpty then 0 else 1)

/-- Set entry `i` of a presence bitmap. -/
def list_set : List Bool → Nat → List Bool
  | [], _ => []
  | _ :: rest, 0 => true :: rest
  | b :: rest, n + 1 => b :: list_set rest n

/-- Read entry `i` of a presence bitmap (`false` when out of range). -/
def list_get (l : List Bool) (i : Nat) : Bool := (l.get? i).getD false

/-- The scan of one named choice over the literal positions `low..high`
    of the enumeration branch (lines 626‑634). -/
def case_enum_scan (base : ty) (name : ident) (low : Nat) :
    Nat → Nat → List Bool → Except efatal (List Bool × Nat)
  | 0, _, have_ => return (have_, 0)
  | n + 1, j, have_ => do
      let lit ← oassert (type_enum_literal base j)
      if lit == name then
        if list_get have_ (j - low) then do
          let (h', e) ← case_enum_scan base name low n (j + 1) have_
          return (h', e + 1)
        else
          case_enum_scan base name low n (j + 1) (list_set have_ (j - low))
      else
        case_enum_scan base name low n (j + 1) have_

/-- The association loop of the enumeration branch (lines 616‑635). -/
def case_enum_loop (base : ty) (low high : Nat) : List assocT →
    Bool → List Bool → Except efatal (Bool × List Bool × Nat)
  | [], ho, have_ => return (ho, have_, 0)
  | a :: rest, ho, have_ => do
      match a with
      | .aothers _ => case_enum_loop base low high rest true have_
      | .anamed name _ => do
          let n ← oassert (tree_ident name)
          let (have', e₁) ← case_enum_scan base n low (high + 1 - low) low have_
          let (ho', have'', e₂) ← case_enum_loop base low high rest ho have'
          return (ho', have'', e₁ + e₂)
      | _ => throw .assertFail

/-- The missing-literal report of the enumeration branch (lines 637‑643):
    one error per absent literal when no `others` is present. -/
def case_enum_missing (base : ty) (low : Nat) :
    Nat → Nat → List Bool → Bool → Except efatal Nat
  | 0, _, _, _ => return 0
  | n + 1, i, have_, ho => do
      let _ ← oassert (type_enum_literal base i)
      let e := if !list_get have_ (i - low) && !ho then 1 else 0
      let es ← case_enum_missing base low n (i + 1) have_ ho
      return e + es

/-- The enumeration branch of `bounds_check_case` (lines 578‑644).
    A subtype range whose endpoints are not references to enumeration
    literals makes the check return early; `bOther` bounds are treated
    that way. -/
def bounds_check_case_enum (type : ty) (assocs : List assocT) :
    Except efatal Nat := do
  let base := type_base_recur type
  match type with
  | .tSubtype _ dims => do
      if dims.length ≠ 1 then throw .assertFail
      else do
        let r ← oassert (dims.get? 0)
        if r.kind ≠ .rTo then throw .assertFail
        else
          match r.left, r.right with
          | .bEnum _ _ lpos, .bEnum _ _ rpos => do
              let low := lpos
              let high := rpos
              let have0 := List.replicate (high + 1 - low) false
              let (ho, have_, e₁) ← case_enum_loop base low high assocs
                false have0
              let e₂ ← case_enum_missing base low (high + 1 - low) low have_ ho
              return e₁ + e₂
          | _, _ => return 0
  | _ => do
      let nlits ← oassert (type_enum_literals type)
      if nlits = 0 then throw .assertFail
      else do
        let low := 0
        let high := nlits - 1
        let have0 := List.replicate nlits false
        let (ho, have_, e₁) ← case_enum_loop base low high assocs false have0
        let e₂ ← case_enum_missing base low nlits low have_ ho
        return e₁ + e₂

/-- Modelled from the spec: `ipow(x, y)` is `x` to the power `y` in
    64-bit integer arithmetic (declared in `util.h`, implementation not
    under `src/`); only called with a non-negative exponent here. -/
def ipow (x y : Int) : Int := wrap64 (x ^ y.toNat)

/-- The choice count of the array branch (lines 747‑764): an `others`
    choice *assigns* `expect`, a named choice adds one, a ranged choice
    asserts, and a positional association falls through unchanged. -/
def case_array_count (expect : Int) : List assocT → Int →
    Except efatal Int
  | [], hv => return hv
  | a :: rest, hv =>
      match a with
      | .aothers _ => case_array_count expect rest expect
      | .anamed _ _ => case_array_count expect rest (hv + 1)
      | .arange _ _ => throw .assertFail
      | .apos _ => case_array_count expect rest hv

/-- The tail of the array branch once the element alphabet size is known
    (lines 740‑772). -/
def bounds_check_case_array_tail (type : ty) (assocs : List assocT)
    (elemsz : Int) : Except efatal Nat := do
  let d0 ← oassert (type_dim type 0)
  match foldedB_length d0 with
  | none => return 0
  | some length => do
      let expect := if elemsz > INT32_MAX then INT64_MAX else ipow elemsz length
      let hv ← case_array_count expect assocs 0
      return (if hv ≠ expect then 1 else 0)

/-- The array branch of `bounds_check_case` (lines 718‑773). -/
def bounds_check_case_array (type : ty) (assocs : List assocT) :
    Except efatal Nat := do
  let elem ← oassert (type_elem type)
  match elem with
  | .tSubtype _ _ | .tCarray _ _ | .tInteger _ => do
      let d ← oassert (type_dim elem 0)
      match foldedB_bounds d with
      | none => return 0
      | some lh => bounds_check_case_array_tail type assocs (lh.2 - lh.1 + 1)
  | .tEnum _ lits => bounds_check_case_array_tail type assocs (lits.length : Int)
  | _ => return 0

/-- `bounds_check_case` (lines 574‑774). -/
def bounds_check_case (t : tree) : Except efatal Nat := do
  match t with
  | .scase value assocs => do
      let type ← oassert (tree_type value)
      if type_is_enum type then bounds_check_case_enum type assocs
      else if type_is_integer type then do
        let r ← oassert (type_dim type 0)
        match foldedB_bounds r with
        | none => return 0
        | some lh => bounds_check_case_int lh.1 lh.2 assocs
      else if type_is_array type then bounds_check_case_array type assocs
      else return 0
  | _ => throw .assertFail

/-- `bounds_check_type_conv` (lines 776‑804): a folded real or integer
    source converted into an integer type must land inside the target's
    folded bounds; the real source is truncated toward zero. -/
def bounds_check_type_conv (t : tree) : Except efatal Nat := do
  match t with
  | .typeConv oty params => do
      let p0 ← oassert (params.get? 0)
      let value := p0.value
      let from_ ← oassert (tree_type value)
      let to_ ← oassert oty
      if type_is_integer to_ then do
        let ivalOpt : Option Int :=
          if type_is_real from_ then (folded_real value).map rat_trunc
          else if type_is_integer from_ then folded_int value
          else none
        match ivalOpt with
        | none => return 0
        | some ival => do
            let d ← oassert (type_dim to_ 0)
            match foldedB_bounds d with
            | none => return 0
            | some lh =>
                return (if ival < lh.1 ∨ ival > lh.2 then 1 else 0)
      else return 0
  | _ => throw .assertFail

/-- `bounds_check_attr_ref` (lines 806‑835): an explicit dimension
    argument of `length`/`low`/`high`/`left`/`right` must fold (the
    source asserts this) and lie in `1..ndims`. -/
def bounds_check_attr_ref (t : tree) : Except efatal Nat := do
  match t with
  | .attrRef battr name params =>
      match battr with
      | .attrOtherPredef => return 0
      | _ =>
          if params.isEmpty then return 0
          else do
            let type ← oassert (tree_type name)
            if type_is_array type && !type_is_unconstrained type then do
              let p0 ← oassert (params.get? 0)
              match folded_int p0.value with
              | none => throw .assertFail
              | some dim =>
                  return (if dim < 1 ∨ dim > (type_dims type : Int)
                    then 1 else 0)
            else return 0
  | _ => throw .assertFail

/-- `bounds_visit_fn` (lines 837‑879): the per-node dispatch.  Only the
    array-reference check rewrites its node (the `elide_bounds` mark). -/
def bounds_visit_fn (t : tree) : Except efatal (tree × Nat) := do
  match t with
  | .pcall _ _ | .fcall _ _ _ => do
      let e ← bounds_check_call_args t
      return (t, e)
  | .arrayRef _ _ _ _ => bounds_check_array_ref t
  | .arraySlice _ _ _ => do
      let e ← bounds_check_array_slice t
      return (t, e)
  | .aggregate _ _ _ => do
      let e ← bounds_check_aggregate t
      return (t, e)
  | .signalDecl _ _ _ | .constDecl _ _ _ | .varDecl _ _ _ => do
      let e ← bounds_check_decl t
      return (t, e)
  | .ssignalAssign target waveforms => do
      let e ← signal_assign_loop target waveforms
      return (t, e)
  | .svarAssign target value => do
      let e ← bounds_check_var_assign target value
      return (t, e)
  | .scase _ _ => do
      let e ← bounds_check_case t
      return (t, e)
  | .litInt _ _ | .litReal _ _ | .litString _ _ | .litOther _ => do
      let e ← bounds_check_literal t
      return (t, e)
  | .typeConv _ _ => do
      let e ← bounds_check_type_conv t
      return (t, e)
  | .attrRef _ _ _ => do
      let e ← bounds_check_attr_ref t
      return (t, e)
  | _ => return (t, 0)

mutual

/-- Modelled from the spec: `tree_visit` (implementation not under
    `src/`): visit every node of the tree bottom-up — children first,
    then `bounds_visit_fn` on the rebuilt node.  References are not
    followed into their declarations (a declaration is visited where it
    occurs).  Returns the rewritten tree and the total error count. -/
def bounds_visit : tree → Except efatal (tree × Nat)
  | .ref oty decl => bounds_visit_fn (.ref oty decl)
  | .fcall oty decl ps => do
      let (ps', n₁) ← bounds_visit_params ps
      let (t', n₂) ← bounds_visit_fn (.fcall oty decl ps')
      return (t', n₁ + n₂)
  | .pcall decl ps => do
      let (ps', n₁) ← bounds_visit_params ps
      let (t', n₂) ← bounds_visit_fn (.pcall decl ps')
      return (t', n₁ + n₂)
  | .typeConv oty ps => do
      let (ps', n₁) ← bounds_visit_params ps
      let (t', n₂) ← bounds_visit_fn (.typeConv oty ps')
      return (t', n₁ + n₂)
  | .arrayRef oty value ps elide => do
      let (value', n₁) ← bounds_visit value
      let (ps', n₂) ← bounds_visit_params ps
      let (t', n₃) ← bounds_visit_fn (.arrayRef oty value' ps' elide)
      return (t', n₁ + n₂ + n₃)
  | .arraySlice oty value rng => do
      let (value', n₁) ← bounds_visit value
      let (rng', n₂) ← bounds_visit_range rng
      let (t', n₃) ← bounds_visit_fn (.arraySlice oty value' rng')
      return (t', n₁ + n₂ + n₃)
  | .aggregate oty u assocs => do
      let (assocs', n₁) ← bounds_visit_assocs assocs
      let (t', n₂) ← bounds_visit_fn (.aggregate oty u assocs')
      return (t', n₁ + n₂)
  | .attrRef b name ps => do
      let (name', n₁) ← bounds_visit name
      let (ps', n₂) ← bounds_visit_params ps
      let (t', n₃) ← bounds_visit_fn (.attrRef b name' ps')
      return (t', n₁ + n₂ + n₃)
  | .funcDecl b name ports => do
      let (ports', n₁) ← bounds_visit_list ports
      let (t', n₂) ← bounds_visit_fn (.funcDecl b name ports')
      return (t', n₁ + n₂)
  | .funcBody b name ports decls stmts => do
      let (ports', n₁) ← bounds_visit_list ports
      let (decls', n₂) ← bounds_visit_list decls
      let (stmts', n₃) ← bounds_visit_list stmts
      let (t', n₄) ← bounds_visit_fn (.funcBody b name ports' decls' stmts')
      return (t', n₁ + n₂ + n₃ + n₄)
  | .varDecl oty name value => do
      let (value', n₁) ← bounds_visit_opt value
      let (t', n₂) ← bounds_visit_fn (.varDecl oty name value')
      return (t', n₁ + n₂)
  | .constDecl oty name value => do
      let (value', n₁) ← bounds_visit_opt value
      let (t', n₂) ← bounds_visit_fn (.constDecl oty name value')
      return (t', n₁ + n₂)
  | .signalDecl oty name value => do
      let (value', n₁) ← bounds_visit_opt value
      let (t', n₂) ← bounds_visit_fn (.signalDecl oty name value')
      return (t', n₁ + n₂)
  | .sreturn value => do
      let (value', n₁) ← bounds_visit_opt value
      let (t', n₂) ← bounds_visit_fn (.sreturn value')
      return (t', n₁ + n₂)
  | .swhile label cond stmts => do
      let (cond', n₁) ← bounds_visit_opt cond
      let (stmts', n₂) ← bounds_visit_list stmts
      let (t', n₃) ← bounds_visit_fn (.swhile label cond' stmts')
      return (t', n₁ + n₂ + n₃)
  | .sfor label decls rng stmts => do
      let (decls', n₁) ← bounds_visit_list decls
      let (rng', n₂) ← bounds_visit_range rng
      let (stmts', n₃) ← bounds_visit_list stmts
      let (t', n₄) ← bounds_visit_fn (.sfor label decls' rng' stmts')
      return (t', n₁ + n₂ + n₃ + n₄)
  | .sif cond stmts elseStmts => do
      let (cond', n₁) ← bounds_visit cond
      let (stmts', n₂) ← bounds_visit_list stmts
      let (elseStmts', n₃) ← bounds_visit_list elseStmts
      let (t', n₄) ← bounds_visit_fn (.sif cond' stmts' elseStmts')
      return (t', n₁ + n₂ + n₃ + n₄)
  | .svarAssign target value => do
      let (target', n₁) ← bounds_visit target
      let (value', n₂) ← bounds_visit value
      let (t', n₃) ← bounds_visit_fn (.svarAssign target' value')
      return (t', n₁ + n₂ + n₃)
  | .ssignalAssign target waveforms => do
      let (target', n₁) ← bounds_visit target
      let (waveforms', n₂) ← bounds_visit_list waveforms
      let (t', n₃) ← bounds_visit_fn (.ssignalAssign target' waveforms')
      return (t', n₁ + n₂ + n₃)
  | .sblock decls stmts => do
      let (decls', n₁) ← bounds_visit_list decls
      let (stmts', n₂) ← bounds_visit_list stmts
      let (t', n₃) ← bounds_visit_fn (.sblock decls' stmts')
      return (t', n₁ + n₂ + n₃)
  | .sexit label cond => do
      let (cond', n₁) ← bounds_visit_opt cond
      let (t', n₂) ← bounds_visit_fn (.sexit label cond')
      return (t', n₁ + n₂)
  | .scase value assocs => do
      let (value', n₁) ← bounds_visit value
      let (assocs', n₂) ← bounds_visit_assocs assocs
      let (t', n₃) ← bounds_visit_fn (.scase value' assocs')
      return (t', n₁ + n₂ + n₃)
  | t => bounds_visit_fn t

/-- Visit a list of child trees. -/
def bounds_visit_list : List tree → Except efatal (List tree × Nat)
  | [] => return ([], 0)
  | t :: rest => do
      let (t', n₁) ← bounds_visit t
      let (rest', n₂) ← bounds_visit_list rest
      return (t' :: rest', n₁ + n₂)

/-- Visit an optional child tree. -/
def bounds_visit_opt : Option tree → Except efatal (Option tree × Nat)
  | none => return (none, 0)
  | some t => do
      let (t', n) ← bounds_visit t
      return (some t', n)

/-- Visit the value of each parameter. -/
def bounds_visit_params : List paramT → Except efatal (List paramT × Nat)
  | [] => return ([], 0)
  | .mk sub pos value :: rest => do
      let (value', n₁) ← bounds_visit value
      let (rest', n₂) ← bounds_visit_params rest
      return (.mk sub pos value' :: rest', n₁ + n₂)

/-- Visit both endpoints of an expression-level range. -/
def bounds_visit_range : rangeE → Except efatal (rangeE × Nat)
  | .mk left right kind => do
      let (left', n₁) ← bounds_visit left
      let (right', n₂) ← bounds_visit right
      return (.mk left' right' kind, n₁ + n₂)

/-- Visit each association's name, range and value. -/
def bounds_visit_assocs : List assocT → Except efatal (List assocT × Nat)
  | [] => return ([], 0)
  | .apos value :: rest => do
      let (value', n₁) ← bounds_visit value
      let (rest', n₂) ← bounds_visit_assocs rest
      return (.apos value' :: rest', n₁ + n₂)
  | .anamed name value :: rest => do
      let (name', n₁) ← bounds_visit name
      let (value', n₂) ← bounds_visit value
      let (rest', n₃) ← bounds_visit_assocs rest
      return (.anamed name' value' :: rest', n₁ + n₂ + n₃)
  | .arange rng value :: rest => do
      let (rng', n₁) ← bounds_visit_range rng
      let (value', n₂) ← bounds_visit value
      let (rest', n₃) ← bounds_visit_assocs rest
      return (.arange rng' value' :: rest', n₁ + n₂ + n₃)
  | .aothers value :: rest => do
      let (value', n₁) ← bounds_visit value
      let (rest', n₂) ← bounds_visit_assocs rest
      return (.aothers value' :: rest', n₁ + n₂)

end

/-- `bounds_check(top)` (lines 881‑884): one full visit; the `Nat` is the
    number of errors this run adds to the global `errors` counter that
    `bounds_errors()` reads. -/
def bounds_check (top : tree) : Except efatal (tree × Nat) :=
  bounds_visit top

/-! ## Shared concrete fixtures -/

set_option maxRecDepth 8000

/-- The INTEGER base type. -/
def c_intTy : ty :=
  ty.tInteger [rangeB.mk (bnd.bInt none (-(2 ^ 31))) (bnd.bInt none (2 ^ 31 - 1))
    rkind.rTo]

/-- An integer literal typed `c_intTy`. -/
def c_il (i : Int) : tree := tree.litInt (some c_intTy) i

def c_boolTy : ty := ty.tEnum "BOOLEAN" ["FALSE", "TRUE"]

def c_xPort : tree := tree.portDecl (some c_intTy) "X"
def c_xRef : tree := tree.ref (some c_intTy) c_xPort
def c_addDecl : tree := tree.funcDecl (some "add") "+" []
def c_mulriDecl : tree := tree.funcDecl (some "mulri") "*" []
def c_bin (d a b : tree) : tree :=
  tree.fcall (some c_intTy) d [paramT.mk .pPos 0 a, paramT.mk .pPos 1 b]

/-! ## C10: frame capacity of the binding environment -/

/-- Replacing a binding in place preserves the frame size. -/
theorem binding_replace_length (l : List (ident × tree)) (n : ident) (t : tree) :
    (binding_replace l n t).length = l.length := by
  induction l with
  | nil => rfl
  | cons b rest ih =>
      by_cases hb : (b.1 == n) = true
      · simp [binding_replace, hb]
      · simp [binding_replace, hb, ih]

/-- C10: every binding frame holds at most `VTABLE_SZ = 16` bindings:
    `vtable_bind` replaces the value of a name already present in the top
    frame (leaving the size unchanged), appends while fewer than 16 slots
    are used, and hits the C `assert(f->size < VTABLE_SZ)` — aborting —
    when a 17th distinct identifier is bound. -/
theorem c10_vtable_bind_capacity (v : vtable) (f : vtframe)
    (rest : List vtframe) (name : ident) (value : tree)
    (htop : v.top = f :: rest) :
    (f.binding.any (·.1 == name) = true →
       vtable_bind v name value =
         .ok { v with top := ⟨binding_replace f.binding name value⟩ :: rest }
       ∧ (binding_replace f.binding name value).length = f.binding.length)
    ∧ (f.binding.any (·.1 == name) = false → f.binding.length < VTABLE_SZ →
       vtable_bind v name value =
         .ok { v with top := ⟨f.binding ++ [(name, value)]⟩ :: rest }
       ∧ (f.binding ++ [(name, value)]).length = f.binding.length + 1)
    ∧ (f.binding.any (·.1 == name) = false → VTABLE_SZ ≤ f.binding.length →
       vtable_bind v name value = .error .assertFail) := by
  refine ⟨fun hin => ?_, fun hout hlt => ?_, fun hout hge => ?_⟩
  · constructor
    · simp [vtable_bind, htop, vtframe_bind, hin, pure, Except.pure, bind,
        Except.bind]
    · exact binding_replace_length f.binding name value
  · constructor
    · simp [vtable_bind, htop, vtframe_bind, hout, hlt, pure, Except.pure,
        bind, Except.bind]
    · simp
  · simp [vtable_bind, htop, vtframe_bind, hout, Nat.not_lt.mpr hge, bind,
      Except.bind, throw, throwThe, MonadExceptOf.throw, Functor.map,
      Except.map]

/-- A frame already holding 16 distinct names. -/
def c_f16 : vtframe :=
  ⟨[("A", c_il 0), ("B", c_il 0), ("C", c_il 0), ("D", c_il 0),
    ("E", c_il 0), ("F", c_il 0), ("G", c_il 0), ("H", c_il 0),
    ("I", c_il 0), ("J", c_il 0), ("K", c_il 0), ("L", c_il 0),
    ("M", c_il 0), ("N", c_il 0), ("O", c_il 0), ("P", c_il 0)]⟩

def c_vt16 : vtable := { top := [c_f16], failed := false, exit := none, result := none }

/-- Witness for C10: binding a 17th distinct name into a full frame
    aborts on the assertion. -/
theorem c10_vtable_bind_capacity_witness :
    vtable_bind c_vt16 "Q" (c_il 1) = .error .assertFail :=
  (c10_vtable_bind_capacity c_vt16 c_f16 [] "Q" (c_il 1) rfl).2.2 rfl
    (by norm_num [c_f16, VTABLE_SZ])

/-! ## C2: the universal-operator fatal path -/

/-- Counterexample to C2: a call dispatching to the universal `mulri`
    operator with two *integer* literal operands does not return the
    input with `failed` set — `eval_fcall_universal` calls `fatal_at`
    and the process aborts. -/
theorem c2_counterexample_mulri_aborts :
    eval 10 (tree.fcall (some c_intTy) c_mulriDecl
      [paramT.mk .pPos 0 (c_il 1), paramT.mk .pPos 1 (c_il 2)])
      = .error .fatalAt := rfl

/-- C2 (amended): the complete behaviour of the universal-operator
    dispatch.  For each of `mulri`, `mulir` and `divri` on two (or more)
    arguments: when the operands fold to the expected real/integer kinds
    the result is a real literal carrying the folded product or quotient,
    and otherwise `fatal_at` aborts the process - the call is never
    handed back with `failed` set.  Reading a missing argument is out of
    bounds in the C source (modelled as an assertion error). -/
theorem c2_eval_fcall_universal_spec (t a0 a1 : tree)
    (rest : List tree) :
    (eval_fcall_universal t "mulri" (a0 :: a1 :: rest)
      = match folded_real a0, folded_int a1 with
        | some r, some i => Except.ok (get_real_lit t (r * (i : Rat)))
        | _, _ => Except.error efatal.fatalAt)
    ∧ (eval_fcall_universal t "mulir" (a0 :: a1 :: rest)
      = match folded_real a1, folded_int a0 with
        | some r, some i => Except.ok (get_real_lit t (r * (i : Rat)))
        | _, _ => Except.error efatal.fatalAt)
    ∧ (eval_fcall_universal t "divri" (a0 :: a1 :: rest)
      = match folded_real a0, folded_int a1 with
        | some r, some i => Except.ok (get_real_lit t (r / (i : Rat)))
        | _, _ => Except.error efatal.fatalAt)
    ∧ (∀ b : ident, eval_fcall_universal t b []
      = Except.error efatal.assertFail)
    ∧ (∀ b : ident, eval_fcall_universal t b [a0]
      = Except.error efatal.assertFail) := by
  refine ⟨?_, ?_, ?_, fun b => rfl, fun b => rfl⟩
  · unfold eval_fcall_universal
    simp only [arg, List.get?, bind, Except.bind, pure, Except.pure]
    cases hr : folded_real a0 <;> cases hi : folded_int a1 <;>
      simp [hr, hi, show icmp "mulri" "mulri" = true from rfl,
        show icmp "mulri" "mulir" = false from rfl,
        show icmp "mulri" "divri" = false from rfl, throw, throwThe,
        MonadExceptOf.throw]
  · unfold eval_fcall_universal
    simp only [arg, List.get?, bind, Except.bind, pure, Except.pure]
    cases hr : folded_real a1 <;> cases hi : folded_int a0 <;>
      simp [hr, hi, show icmp "mulir" "mulri" = false from rfl,
        show icmp "mulir" "mulir" = true from rfl,
        show icmp "mulir" "divri" = false from rfl, throw, throwThe,
        MonadExceptOf.throw]
  · unfold eval_fcall_universal
    simp only [arg, List.get?, bind, Except.bind, pure, Except.pure]
    cases hr : folded_real a0 <;> cases hi : folded_int a1 <;>
      simp [hr, hi, show icmp "divri" "mulri" = false from rfl,
        show icmp "divri" "mulir" = false from rfl,
        show icmp "divri" "divri" = true from rfl, throw, throwThe,
        MonadExceptOf.throw]

/-- Witness for C2 (amended): `mulri` on the real literal 2.0 and the
    integer literal 3 folds to the real literal 6.0; the same operator
    on two integer literals aborts (see the counterexample). -/
theorem c2_eval_fcall_universal_spec_witness :
    eval_fcall_universal (c_il 0) "mulri" [tree.litReal none 2, c_il 3]
      = Except.ok (get_real_lit (c_il 0) 6) := by
  rw [(c2_eval_fcall_universal_spec (c_il 0) (tree.litReal none 2)
    (c_il 3) []).1]
  norm_num [folded_real, folded_int, c_il]


/-! ## C6: the integer `exp` builtin -/

theorem wrap64_emod (x : Int) : wrap64 x % 2 ^ 64 = x % 2 ^ 64 := by
  unfold wrap64
  omega

theorem wrap64_bounds (x : Int) :
    -(2 ^ 63) ≤ wrap64 x ∧ wrap64 x < 2 ^ 63 := by
  unfold wrap64
  omega

theorem wrap64_eq_of (x y : Int) (hlo : -(2 ^ 63) ≤ x) (hhi : x < 2 ^ 63)
    (hmod : x % 2 ^ 64 = y % 2 ^ 64) : x = wrap64 y := by
  unfold wrap64
  omega

/-- `exp_loop_fuel` computes `r * a ^ b` modulo `2 ^ 64` given enough
    fuel, and lands in the signed 64-bit range whenever `b ≠ 0`. -/
theorem exp_loop_fuel_spec : ∀ fuel (r a : Int) (b : Nat), b ≤ fuel →
    exp_loop_fuel fuel r a b % 2 ^ 64 = r * a ^ b % 2 ^ 64
    ∧ (b ≠ 0 → -(2 ^ 63) ≤ exp_loop_fuel fuel r a b
        ∧ exp_loop_fuel fuel r a b < 2 ^ 63) := by
  intro fuel
  induction fuel with
  | zero =>
      intro r a b hb
      interval_cases b
      simp [exp_loop_fuel]
  | succ fuel ih =>
      intro r a b hb
      by_cases h0 : b = 0
      · subst h0
        simp [exp_loop_fuel]
      · have hstep : exp_loop_fuel (fuel + 1) r a b
            = exp_loop_fuel fuel (if b % 2 = 1 then wrap64 (r * a) else r)
              (wrap64 (a * a)) (b / 2) := by
          simp [exp_loop_fuel, h0]
        obtain ⟨ih1, ih2⟩ := ih (if b % 2 = 1 then wrap64 (r * a) else r)
          (wrap64 (a * a)) (b / 2) (by omega)
        constructor
        · rw [hstep, ih1]
          have ha : Int.ModEq (2 ^ 64) ((wrap64 (a * a)) ^ (b / 2))
              ((a * a) ^ (b / 2)) :=
            Int.ModEq.pow (b / 2) (wrap64_emod (a * a))
          have hr : Int.ModEq (2 ^ 64)
              (if b % 2 = 1 then wrap64 (r * a) else r) (r * a ^ (b % 2)) := by
            by_cases hb2 : b % 2 = 1
            · simpa [hb2] using (wrap64_emod (r * a) : Int.ModEq _ _ _)
            · have hz : b % 2 = 0 := by omega
              simp [hb2, hz]
          have hmul := hr.mul ha
          have hrw : r * a ^ (b % 2) * (a * a) ^ (b / 2) = r * a ^ b := by
            rw [show a * a = a ^ 2 by ring, ← pow_mul, mul_assoc, ← pow_add]
            congr 2
            omega
          rw [hrw] at hmul
          exact hmul
        · intro _
          rw [hstep]
          by_cases hb2 : b / 2 = 0
          · have hb1 : b = 1 := by omega
            have hz : exp_loop_fuel fuel (if b % 2 = 1 then wrap64 (r * a)
                else r) (wrap64 (a * a)) 0 = (if b % 2 = 1 then wrap64 (r * a)
                else r) := by
              cases fuel <;> simp [exp_loop_fuel]
            rw [hb2, hz]
            simp only [hb1]
            exact wrap64_bounds (r * a)
          · exact ih2 hb2

/-- The repeated-squaring loop yields the two's-complement value of
    `a ^ b` for every positive exponent. -/
theorem exp_loop_spec (a : Int) (b : Nat) (hb : b ≠ 0) :
    exp_loop 1 a b = wrap64 (a ^ b) := by
  obtain ⟨h1, h2⟩ := exp_loop_fuel_spec b 1 a b le_rfl
  obtain ⟨hlo, hhi⟩ := h2 hb
  exact wrap64_eq_of _ _ hlo hhi (by simpa using h1)

/-- The `exp` branch of `eval_fcall_int` in closed form. -/
theorem eval_fcall_int_exp_eq (t : tree) (a b : Int) :
    eval_fcall_int t "exp" [a, b] =
      (if a = 0 then Except.ok (get_int_lit t 0)
       else if b = 0 then Except.ok (get_int_lit t 1)
       else if b < 0 then Except.ok t
       else Except.ok (get_int_lit t (exp_loop 1 a b.toNat))) := rfl

/-- Counterexample to C6: with base `a = 0` the source returns the
    integer literal `0` *before* looking at the sign of the exponent
    (lines 210‑211), so a negative exponent is not rejected when `a = 0`,
    and `0 ** 0` folds to `0` rather than the exact power `1`. -/
theorem c6_counterexample :
    eval_fcall_int (c_il 7) "exp" [0, -1] = .ok (c_il 0)
    ∧ eval_fcall_int (c_il 7) "exp" [0, 0] = .ok (c_il 0)
    ∧ c_il 0 ≠ c_il 7
    ∧ (0 : Int) ≠ (0 : Int) ^ (0 : Nat) :=
  ⟨rfl, rfl, by simp [c_il], by norm_num⟩

/-- C6 (amended): for base `0` the `exp` builtin folds to the literal `0`
    regardless of the exponent; for a nonzero base, a non-negative
    exponent folds to `a ^ b` in two's-complement 64-bit arithmetic
    (computed by repeated squaring) and a negative exponent returns the
    original call unchanged. -/
theorem c6_exp_spec (t : tree) (a b : Int) :
    (a = 0 → eval_fcall_int t "exp" [a, b] = .ok (get_int_lit t 0))
    ∧ (a ≠ 0 → 0 ≤ b → eval_fcall_int t "exp" [a, b]
        = .ok (get_int_lit t (wrap64 (a ^ b.toNat))))
    ∧ (a ≠ 0 → b < 0 → eval_fcall_int t "exp" [a, b] = .ok t) := by
  refine ⟨fun h0 => ?_, fun h0 hb => ?_, fun h0 hb => ?_⟩
  · rw [eval_fcall_int_exp_eq, if_pos h0]
  · rw [eval_fcall_int_exp_eq, if_neg h0]
    by_cases hb0 : b = 0
    · rw [if_pos hb0, hb0]
      norm_num [wrap64]
    · rw [if_neg hb0, if_neg (by omega)]
      rw [exp_loop_spec a b.toNat (by omega)]
  · rw [eval_fcall_int_exp_eq, if_neg h0, if_neg (by omega), if_pos hb]

/-- Witness for C6 (amended): `3 ** 4` folds to `81`. -/
theorem c6_exp_spec_witness :
    eval_fcall_int (c_il 5) "exp" [3, 4]
      = .ok (get_int_lit (c_il 5) (wrap64 ((3 : Int) ^ ((4 : Int)).toNat)))
    ∧ wrap64 ((3 : Int) ^ ((4 : Int)).toNat) = 81 :=
  ⟨(c6_exp_spec (c_il 5) 3 4).2.1 (by norm_num) (by norm_num),
   by decide⟩

/-! ## C5: the `while` iteration bound -/

/-- Any completed activation of the `while` loop starting at iteration
    count `iters ≤ 999` executes its body at most `999 - iters` times:
    the `++iters == MAX_ITERS` check fires before a 1000th execution. -/
theorem eval_while_loop_bound : ∀ fuel : Nat,
    (∀ label cond stmts iters v r, iters ≤ 999 →
      eval_while_loop fuel label cond stmts iters v = .ok r →
      iters + r.2 ≤ 999)
    ∧ (∀ label cond stmts iters cb v r, iters ≤ 999 →
      eval_while_step fuel label cond stmts iters cb v = .ok r →
      iters + r.2 ≤ 999) := by
  intro fuel
  induction fuel with
  | zero =>
      constructor
      · intro label cond stmts iters v r _ h
        simp [eval_while_loop] at h
      · intro label cond stmts iters cb v r _ h
        simp [eval_while_step] at h
  | succ fuel ih =>
      obtain ⟨ihl, ihs⟩ := ih
      constructor
      · intro label cond stmts iters v r hiters h
        simp only [eval_while_loop, bind, Except.bind, pure, Except.pure] at h
        split at h
        · cases h
          simpa using hiters
        · split at h
          · split at h
            · exact absurd h (by simp)
            · split at h
              · cases h
                simpa using hiters
              · exact ihs _ _ _ _ _ _ _ hiters h
          · exact ihs _ _ _ _ _ _ _ hiters h
      · intro label cond stmts iters cb v r hiters h
        simp only [eval_while_step, MAX_ITERS, bind, Except.bind, pure,
          Except.pure] at h
        split at h
        · cases h
          simpa using hiters
        · split at h
          · cases h
            simpa using hiters
          · rename_i hnot hlim
            have hlt : iters + 1 ≤ 999 := by omega
            split at h
            · exact absurd h (by simp)
            · split at h
              · split at h <;> (cases h; simpa using hlt)
              · split at h
                · exact absurd h (by simp)
                · rename_i p hloop
                  cases h
                  have hrec := ihl _ _ _ _ _ _ hlt hloop
                  simp only [] at hrec ⊢
                  omega

/-- C5: the evaluator's iteration-bounded `while` executes its body at
    most 1000 times per activation (in fact at most 999), and on the
    iteration that would reach `MAX_ITERS` it sets `failed` and stops
    instead of running the body again. -/
theorem c5_while_iteration_bound :
    (∀ fuel t v v' n, eval_while fuel t v = .ok (v', n) → n ≤ MAX_ITERS)
    ∧ (∀ fuel label cond stmts v, v.failed = false →
        eval_while_step (fuel + 1) label cond stmts (MAX_ITERS - 1) true v
          = .ok ({ v with failed := true }, 0)) := by
  constructor
  · intro fuel t v v' n h
    match fuel, h with
    | fuel + 1, h =>
        unfold eval_while at h
        split at h
        · have := (eval_while_loop_bound fuel).1 _ _ _ _ _ _
            (by omega) h
          simp only [MAX_ITERS]
          simp at this
          omega
        · exact absurd h (by simp)
  · intro fuel label cond stmts v hf
    simp [eval_while_step, hf, MAX_ITERS, pure, Except.pure]

def c_falseRef : tree :=
  tree.ref (some c_boolTy) (tree.enumLit "BOOLEAN" "FALSE" 0)

def c_whileFalse : tree := tree.swhile "L" (some c_falseRef) []

/-- Witness for C5: a loop whose condition folds to `FALSE` completes
    with zero body executions, and a loop state reaching the bound is
    failed. -/
theorem c5_while_iteration_bound_witness :
    (0 : Nat) ≤ MAX_ITERS
    ∧ eval_while_step 1 "L" none [] (MAX_ITERS - 1) true vtable_init
        = .ok ({ vtable_init with failed := true }, 0) :=
  ⟨c5_while_iteration_bound.1 10 c_whileFalse vtable_init vtable_init 0 rfl,
   c5_while_iteration_bound.2 0 "L" none [] vtable_init rfl⟩

/-! ## C3: `eval_for` and the reversed `downto` null test -/

def c_rDecl : tree := tree.varDecl (some c_intTy) "R" (some (c_il 0))
def c_rRef : tree := tree.ref (some c_intTy) c_rDecl

/-- `function countdown return integer is variable r : integer := 0;
    begin for i in 5 downto 1 loop r := r + 1; end loop; return r;
    end;` -/
def c_countdownBody : tree := tree.funcBody none "COUNTDOWN" [] [c_rDecl]
  [tree.sfor "FL" [tree.varDecl (some c_intTy) "I" none]
     (rangeE.mk (c_il 5) (c_il 1) rkind.rDownto)
     [tree.svarAssign c_rRef (c_bin c_addDecl c_rRef (c_il 1))],
   tree.sreturn (some c_rRef)]

def c_countdownCall : tree := tree.fcall (some c_intTy) c_countdownBody []

/-- A for loop whose body exits with the loop's own label, followed by a
    return. -/
def c_exitForBody : tree := tree.funcBody none "EXITFOR" [] [c_rDecl]
  [tree.sfor "FL" [tree.varDecl (some c_intTy) "I" none]
     (rangeE.mk (c_il 1) (c_il 3) rkind.rTo)
     [tree.sexit "FL" none],
   tree.sreturn (some (c_il 7))]

def c_exitForCall : tree := tree.fcall (some c_intTy) c_exitForBody []

/-- C3: the code at the failing inputs.  `for i in 5 downto 1` executes
    the loop body zero times (the line‑570 null test reads
    `righti < lefti` instead of `righti > lefti`, so every descending
    range is treated as null) and the function folds to `0` where the
    specified semantics iterates five times and yields `5`; and an
    `exit` naming the enclosing `for` loop neither stops the iteration
    nor is cleared (the do‑while at lines 575‑582 tests only `result`),
    so the pending `exit` aborts the statements after the loop and the
    call comes back unfolded instead of folding to `7`. -/
theorem c3_eval_for_downto_and_exit :
    eval 40 c_countdownCall = .ok (tree.litInt (some c_intTy) 0)
    ∧ eval 60 c_exitForCall = .ok c_exitForCall := ⟨rfl, rfl⟩

/-! ## C1: `eval` returns the call or a folded node -/

/-- Every `ok` outcome of `e` is either the original node `t` or folded. -/
def okShape (t : tree) (e : Except efatal tree) : Prop :=
  ∀ r, e = .ok r → r = t ∨ folded r = true

theorem okShape_throw (t : tree) (e : efatal) :
    okShape t (throw e) := fun _ h => nomatch h

theorem okShape_pure_self (t : tree) : okShape t (pure t) :=
  fun _ h => Or.inl (Except.ok.inj h).symm

theorem okShape_intLit (t s : tree) (v : Int) :
    okShape t (pure (get_int_lit s v)) :=
  fun _ h => Or.inr ((Except.ok.inj h) ▸ rfl)

theorem okShape_realLit (t s : tree) (v : Rat) :
    okShape t (pure (get_real_lit s v)) :=
  fun _ h => Or.inr ((Except.ok.inj h) ▸ rfl)

theorem okShape_boolLit (t s : tree) (b : Bool) :
    okShape t (pure (get_bool_lit s b)) :=
  fun _ h => Or.inr ((Except.ok.inj h) ▸ rfl)

theorem okShape_ite (t : tree) (c : Prop) [Decidable c]
    (A B : Except efatal tree) (hA : okShape t A) (hB : okShape t B) :
    okShape t (if c then A else B) := by
  intro r h
  by_cases hc : c
  · rw [if_pos hc] at h
    exact hA r h
  · rw [if_neg hc] at h
    exact hB r h

theorem okShape_bind {α : Type} (t : tree) (x : Except efatal α)
    (k : α → Except efatal tree) (hk : ∀ v, okShape t (k v)) :
    okShape t (x >>= k) := by
  intro r h
  cases x with
  | error e => exact nomatch h
  | ok v => exact hk v r h

/-- `eval_fcall_log` yields the input call or a folded literal. -/
theorem eval_fcall_log_shape (t : tree) (b : ident) (args : List Bool) :
    okShape t (eval_fcall_log t b args) := by
  unfold eval_fcall_log
  repeat
    first
    | exact okShape_pure_self _
    | exact okShape_throw _ _
    | exact okShape_intLit _ _ _
    | exact okShape_realLit _ _ _
    | exact okShape_boolLit _ _ _
    | apply okShape_ite
    | (apply okShape_bind; intro)

/-- `eval_fcall_real` yields the input call or a folded literal. -/
theorem eval_fcall_real_shape (t : tree) (b : ident) (args : List Rat) :
    okShape t (eval_fcall_real t b args) := by
  unfold eval_fcall_real
  repeat
    first
    | exact okShape_pure_self _
    | exact okShape_throw _ _
    | exact okShape_intLit _ _ _
    | exact okShape_realLit _ _ _
    | exact okShape_boolLit _ _ _
    | apply okShape_ite
    | (apply okShape_bind; intro)

/-- `eval_fcall_int` yields the input call or a folded literal. -/
theorem eval_fcall_int_shape (t : tree) (b : ident) (args : List Int) :
    okShape t (eval_fcall_int t b args) := by
  unfold eval_fcall_int
  repeat
    first
    | exact okShape_pure_self _
    | exact okShape_throw _ _
    | exact okShape_intLit _ _ _
    | exact okShape_realLit _ _ _
    | exact okShape_boolLit _ _ _
    | apply okShape_ite
    | (apply okShape_bind; intro)
    | cases args

/-- `eval_fcall_enum` yields the input call or a folded literal. -/
theorem eval_fcall_enum_shape (t : tree) (b : ident) (args : List Nat) :
    okShape t (eval_fcall_enum t b args) := by
  unfold eval_fcall_enum
  repeat
    first
    | exact okShape_pure_self _
    | exact okShape_throw _ _
    | exact okShape_intLit _ _ _
    | exact okShape_realLit _ _ _
    | exact okShape_boolLit _ _ _
    | apply okShape_ite
    | (apply okShape_bind; intro)
    | cases args

/-- `eval_fcall_universal` yields a folded real literal when it does not
    abort. -/
theorem eval_fcall_universal_shape (t : tree) (b : ident)
    (targs : List tree) : okShape t (eval_fcall_universal t b targs) := by
  unfold eval_fcall_universal
  repeat
    first
    | exact okShape_pure_self _
    | exact okShape_throw _ _
    | exact okShape_intLit _ _ _
    | exact okShape_realLit _ _ _
    | exact okShape_boolLit _ _ _
    | apply okShape_ite
    | (apply okShape_bind; intro)

/-- `eval_fcall_str` yields the input call or a folded boolean literal. -/
theorem eval_fcall_str_shape (t : tree) (b : ident) (targs : List tree) :
    okShape t (eval_fcall_str t b targs) := by
  unfold eval_fcall_str
  refine okShape_ite _ _ _ _ ?_ (okShape_pure_self _)
  apply okShape_bind
  intro a0
  apply okShape_bind
  intro a1
  match a0, a1 with
  | .litString oty0 cs0, .litString oty1 cs1 =>
      exact okShape_ite _ _ _ _ (okShape_boolLit _ _ _) (okShape_boolLit _ _ _)
  | .litString _ _, .litInt _ _ | .litString _ _, .litReal _ _
  | .litString _ _, .litOther _ | .litString _ _, .ref _ _
  | .litString _ _, .fcall _ _ _ | .litString _ _, .pcall _ _
  | .litString _ _, .typeConv _ _ | .litString _ _, .arrayRef _ _ _ _
  | .litString _ _, .arraySlice _ _ _ | .litString _ _, .aggregate _ _ _
  | .litString _ _, .attrRef _ _ _ | .litString _ _, .enumLit _ _ _
  | .litString _ _, .funcDecl _ _ _ | .litString _ _, .funcBody _ _ _ _ _
  | .litString _ _, .portDecl _ _ | .litString _ _, .varDecl _ _ _
  | .litString _ _, .constDecl _ _ _ | .litString _ _, .signalDecl _ _ _
  | .litString _ _, .sreturn _ | .litString _ _, .swhile _ _ _
  | .litString _ _, .sfor _ _ _ _ | .litString _ _, .sif _ _ _
  | .litString _ _, .svarAssign _ _ | .litString _ _, .ssignalAssign _ _
  | .litString _ _, .sblock _ _ | .litString _ _, .sexit _ _
  | .litString _ _, .scase _ _ => exact okShape_throw _ _
  | .litInt _ _, _ | .litReal _ _, _ | .litOther _, _ | .ref _ _, _
  | .fcall _ _ _, _ | .pcall _ _, _ | .typeConv _ _, _
  | .arrayRef _ _ _ _, _ | .arraySlice _ _ _, _ | .aggregate _ _ _, _
  | .attrRef _ _ _, _ | .enumLit _ _ _, _ | .funcDecl _ _ _, _
  | .funcBody _ _ _ _ _, _ | .portDecl _ _, _ | .varDecl _ _ _, _
  | .constDecl _ _ _, _ | .signalDecl _ _ _, _ | .sreturn _, _
  | .swhile _ _ _, _ | .sfor _ _ _ _, _ | .sif _ _ _, _
  | .svarAssign _ _, _ | .ssignalAssign _ _, _ | .sblock _ _, _
  | .sexit _ _, _ | .scase _ _, _ => exact okShape_throw _ _

/-- Pair a helper's `okShape` with the `(result, state)` wrapping used by
    `eval_fcall_builtin`. -/
theorem okShape_pair {t r : tree} {v₁ v' : vtable}
    (e : Except efatal tree) (hsh : okShape t e)
    (h : (do let x ← e; pure (x, v₁) : Except efatal (tree × vtable))
      = .ok (r, v')) : r = t ∨ folded r = true := by
  cases e with
  | error u => exact nomatch h
  | ok u =>
      have hu : u = r := by
        simp only [bind, Except.bind, pure, Except.pure] at h
        exact (Prod.mk.injEq u v₁ r v' ▸ Except.ok.inj h).1
      exact hu ▸ hsh u rfl

/-- The builtin dispatch of `eval_fcall` yields the call or a folded
    node. -/
theorem eval_fcall_builtin_shape (fuel : Nat) (t : tree) (b : ident)
    (ps : List paramT) (v : vtable) (r : tree) (v' : vtable)
    (h : eval_fcall_builtin fuel t b ps v = .ok (r, v')) :
    r = t ∨ folded r = true := by
  match fuel with
  | 0 => exact nomatch h
  | fuel + 1 =>
      unfold eval_fcall_builtin at h
      cases hargs : eval_builtin_args fuel ps v with
      | error e => rw [hargs] at h; exact nomatch h
      | ok p =>
          obtain ⟨targs, v₁⟩ := p
          rw [hargs] at h
          simp only [bind, Except.bind] at h
          by_cases hu : (icmp b "mulri" || icmp b "mulir"
              || icmp b "divri") = true
          · rw [if_pos hu] at h
            exact okShape_pair _ (eval_fcall_universal_shape t b targs) h
          · rw [if_neg hu] at h
            by_cases h1 : (targs.all fun a => (folded_int a).isSome) = true
            · rw [if_pos h1] at h
              exact okShape_pair _ (eval_fcall_int_shape t b _) h
            · rw [if_neg h1] at h
              by_cases h2 : (targs.all fun a => (folded_bool a).isSome) = true
              · rw [if_pos h2] at h
                exact okShape_pair _ (eval_fcall_log_shape t b _) h
              · rw [if_neg h2] at h
                by_cases h3 : (targs.all fun a =>
                    (folded_real a).isSome) = true
                · rw [if_pos h3] at h
                  exact okShape_pair _ (eval_fcall_real_shape t b _) h
                · rw [if_neg h3] at h
                  by_cases h4 : (targs.all fun a =>
                      (folded_enum a).isSome) = true
                  · rw [if_pos h4] at h
                    exact okShape_pair _ (eval_fcall_enum_shape t b _) h
                  · rw [if_neg h4] at h
                    by_cases h5 : (targs.all fun a =>
                        match a with
                        | .litString _ _ => true
                        | _ => false) = true
                    · rw [if_pos h5] at h
                      exact okShape_pair _ (eval_fcall_str_shape t b _) h
                    · rw [if_neg h5] at h
                      simp only [pure, Except.pure] at h
                      exact Or.inl (Prod.mk.injEq _ _ _ _
                        ▸ Except.ok.inj h).1.symm

theorem ok_pair_eq {α β : Type} {x r : α} {y w : β}
    (h : (Except.ok (x, y) : Except efatal (α × β)) = .ok (r, w)) :
    x = r ∧ y = w := by
  cases h
  exact ⟨rfl, rfl⟩

/-- `eval_fcall` yields the call node itself or a folded node. -/
theorem eval_fcall_shape (fuel : Nat) (t : tree) (v : vtable) (r : tree)
    (v' : vtable) (h : eval_fcall fuel t v = .ok (r, v')) :
    r = t ∨ folded r = true := by
  match fuel with
  | 0 => exact nomatch h
  | fuel + 1 =>
      unfold eval_fcall at h
      match t with
      | .fcall oty decl ps =>
          match decl with
          | .funcDecl bi name ports =>
              match bi with
              | none =>
                  simp only [pure, Except.pure] at h
                  exact Or.inl (ok_pair_eq h).1.symm
              | some bu => exact eval_fcall_builtin_shape fuel _ bu ps v r v' h
          | .funcBody bi name ports decls stmts =>
              match bi with
              | some bu => exact eval_fcall_builtin_shape fuel _ bu ps v r v' h
              | none =>
                  match oty with
                  | none => exact nomatch h
                  | some tyt =>
                      simp only [] at h
                      by_cases harr : type_is_array tyt = true
                      · rw [if_pos harr] at h
                        simp only [pure, Except.pure] at h
                        exact Or.inl (ok_pair_eq h).1.symm
                      · rw [if_neg harr] at h
                        simp only [bind, Except.bind] at h
                        cases huser : eval_user_args fuel ps ports.length v with
                        | error e => rw [huser] at h; exact nomatch h
                        | ok p =>
                            obtain ⟨argsOpt, v₁⟩ := p
                            rw [huser] at h
                            match argsOpt with
                            | none =>
                                simp only [pure, Except.pure] at h
                                exact Or.inl (ok_pair_eq h).1.symm
                            | some args =>
                                simp only [] at h
                                cases hbp : bind_ports ports args
                                    (vtable_push v₁) with
                                | error e => rw [hbp] at h; exact nomatch h
                                | ok v₃ =>
                                    rw [hbp] at h
                                    simp only [bind, Except.bind] at h
                                    cases hfb : eval_func_body fuel decls
                                        stmts v₃ with
                                    | error e =>
                                        rw [hfb] at h; exact nomatch h
                                    | ok v₄ =>
                                        rw [hfb] at h
                                        simp only [bind, Except.bind] at h
                                        cases hpop : vtable_pop v₄ with
                                        | error e =>
                                            rw [hpop] at h; exact nomatch h
                                        | ok v₅ =>
                                            rw [hpop] at h
                                            simp only [bind, Except.bind] at h
                                            match hres : v₄.result with
                                            | some r₀ =>
                                                rw [hres] at h
                                                simp only [] at h
                                                by_cases hf : folded r₀ = true
                                                · rw [if_pos hf] at h
                                                  simp only [pure,
                                                    Except.pure] at h
                                                  exact Or.inr
                                                    ((ok_pair_eq h).1 ▸ hf)
                                                · rw [if_neg hf] at h
                                                  simp only [pure,
                                                    Except.pure] at h
                                                  exact Or.inl
                                                    (ok_pair_eq h).1.symm
                                            | none =>
                                                rw [hres] at h
                                                simp only [pure,
                                                  Except.pure] at h
                                                exact Or.inl
                                                  (ok_pair_eq h).1.symm
          | .litInt _ _ | .litReal _ _ | .litString _ _ | .litOther _
          | .ref _ _ | .fcall _ _ _ | .pcall _ _ | .typeConv _ _
          | .arrayRef _ _ _ _ | .arraySlice _ _ _ | .aggregate _ _ _
          | .attrRef _ _ _ | .enumLit _ _ _ | .portDecl _ _
          | .varDecl _ _ _ | .constDecl _ _ _ | .signalDecl _ _ _
          | .sreturn _ | .swhile _ _ _ | .sfor _ _ _ _ | .sif _ _ _
          | .svarAssign _ _ | .ssignalAssign _ _ | .sblock _ _
          | .sexit _ _ | .scase _ _ => exact nomatch h
      | .litInt _ _ | .litReal _ _ | .litString _ _ | .litOther _
      | .ref _ _ | .pcall _ _ | .typeConv _ _
      | .arrayRef _ _ _ _ | .arraySlice _ _ _ | .aggregate _ _ _
      | .attrRef _ _ _ | .enumLit _ _ _ | .funcDecl _ _ _
      | .funcBody _ _ _ _ _ | .portDecl _ _
      | .varDecl _ _ _ | .constDecl _ _ _ | .signalDecl _ _ _
      | .sreturn _ | .swhile _ _ _ | .sfor _ _ _ _ | .sif _ _ _
      | .svarAssign _ _ | .ssignalAssign _ _ | .sblock _ _
      | .sexit _ _ | .scase _ _ => exact nomatch h

/-- C1: for every function-call node `c`, a completed `eval(c)` returns
    either `c` itself unchanged or a node satisfying the source's
    `folded` predicate — a literal, or a reference to a boolean
    enumeration literal — never a partially reduced internal node. -/
theorem c1_eval_returns_folded (fuel : Nat) (c r : tree)
    (h : eval fuel c = .ok r) : r = c ∨ folded r = true := by
  unfold eval at h
  match c with
  | .fcall oty decl ps =>
      simp only [bind, Except.bind] at h
      cases hfc : eval_fcall fuel (.fcall oty decl ps) vtable_init with
      | error e => rw [hfc] at h; exact nomatch h
      | ok p =>
          obtain ⟨r₀, vt⟩ := p
          rw [hfc] at h
          simp only [pure, Except.pure] at h
          have hr : (if vt.failed then tree.fcall oty decl ps else r₀) = r :=
            Except.ok.inj h
          by_cases hfail : vt.failed = true
          · rw [if_pos hfail] at hr
            exact Or.inl hr.symm
          · rw [if_neg hfail] at hr
            exact hr ▸ eval_fcall_shape fuel _ vtable_init r₀ vt hfc
  | .litInt _ _ | .litReal _ _ | .litString _ _ | .litOther _
  | .ref _ _ | .pcall _ _ | .typeConv _ _
  | .arrayRef _ _ _ _ | .arraySlice _ _ _ | .aggregate _ _ _
  | .attrRef _ _ _ | .enumLit _ _ _ | .funcDecl _ _ _
  | .funcBody _ _ _ _ _ | .portDecl _ _
  | .varDecl _ _ _ | .constDecl _ _ _ | .signalDecl _ _ _
  | .sreturn _ | .swhile _ _ _ | .sfor _ _ _ _ | .sif _ _ _
  | .svarAssign _ _ | .ssignalAssign _ _ | .sblock _ _
  | .sexit _ _ | .scase _ _ => exact nomatch h

/-- `function add1(x : integer) return integer is begin return x + 1;
    end;` -/
def c_add1Body : tree := tree.funcBody none "ADD1" [c_xPort] []
  [tree.sreturn (some (c_bin c_addDecl c_xRef (c_il 1)))]

def c_add1Call : tree :=
  tree.fcall (some c_intTy) c_add1Body [paramT.mk .pPos 0 (c_il 5)]

/-- Witness for C1: folding `add1(5)` yields the integer literal `6`,
    which satisfies the disjunction. -/
theorem c1_eval_returns_folded_witness :
    tree.litInt (some c_intTy) 6 = c_add1Call
    ∨ folded (tree.litInt (some c_intTy) 6) = true :=
  c1_eval_returns_folded 20 c_add1Call (tree.litInt (some c_intTy) 6) rfl

/-! ## C8: static array references and `elide_bounds` -/

/-- The per-dimension out-of-bounds predicate of
    `bounds_check_array_ref`, over the folded data of dimension `k`. -/
def arrayRefOOB (idxv lv rv : Nat → Int) (kindv : Nat → rkind)
    (k : Nat) : Prop :=
  idxv k < (if kindv k = .rTo then lv k else rv k)
  ∨ idxv k > (if kindv k = .rTo then rv k else lv k)

instance (idxv lv rv : Nat → Int) (kindv : Nat → rkind) (k : Nat) :
    Decidable (arrayRefOOB idxv lv rv kindv k) := by
  unfold arrayRefOOB
  infer_instance

/-- The index loop of `bounds_check_array_ref`, when every index folds
    against folded dimension bounds: it reports one error per
    out-of-bounds dimension and counts the rest as static. -/
theorem array_ref_loop_spec (vty : ty) (idxv lv rv : Nat → Int)
    (cl cr : Nat → Option ty) (kindv : Nat → rkind) :
    ∀ (ps : List paramT) (i : Nat),
    (∀ j pj, ps.get? j = some pj →
      folded_int pj.value = some (idxv (i + j))
      ∧ type_dim vty (i + j) = some (rangeB.mk
          (bnd.bInt (cl (i + j)) (lv (i + j)))
          (bnd.bInt (cr (i + j)) (rv (i + j))) (kindv (i + j)))
      ∧ (kindv (i + j) = .rTo ∨ kindv (i + j) = .rDownto)) →
    array_ref_loop vty ps i = .ok
      (((List.range' i ps.length).filter
          fun k => decide (arrayRefOOB idxv lv rv kindv k)).length,
       ((List.range' i ps.length).filter
          fun k => !decide (arrayRefOOB idxv lv rv kindv k)).length) := by
  intro ps
  induction ps with
  | nil => intro i _; rfl
  | cons p rest ih =>
      intro i H
      obtain ⟨hidx, hdim, hkind⟩ := H 0 p rfl
      have Hrest : ∀ j pj, rest.get? j = some pj →
          folded_int pj.value = some (idxv (i + 1 + j))
          ∧ type_dim vty (i + 1 + j) = some (rangeB.mk
              (bnd.bInt (cl (i + 1 + j)) (lv (i + 1 + j)))
              (bnd.bInt (cr (i + 1 + j)) (rv (i + 1 + j)))
              (kindv (i + 1 + j)))
          ∧ (kindv (i + 1 + j) = .rTo ∨ kindv (i + 1 + j) = .rDownto) := by
        intro j pj hj
        have := H (j + 1) pj (by simpa using hj)
        simpa [Nat.add_comm, Nat.add_assoc, Nat.add_left_comm] using this
      have hrec := ih (i + 1) Hrest
      unfold array_ref_loop
      rw [show i + 0 = i from rfl] at hidx hdim hkind
      rw [hidx, hdim]
      simp only [bind, Except.bind, oassert, pure, Except.pure,
        foldedB_int, rangeB.kind, rangeB.left, rangeB.right]
      rw [if_neg (show ¬(kindv i ≠ rkind.rTo ∧ kindv i ≠ rkind.rDownto) by
        tauto)]
      simp only [hrec]
      have hrange : List.range' i (rest.length + 1)
          = i :: List.range' (i + 1) rest.length := by
        simp [List.range'_succ]
      rw [List.length_cons, hrange]
      by_cases hoob : arrayRefOOB idxv lv rv kindv i
      · rw [if_pos (show idxv i < (if kindv i = rkind.rTo then lv i else rv i)
            ∨ idxv i > (if kindv i = rkind.rTo then rv i else lv i) from hoob)]
        simp [List.filter, hoob]
      · rw [if_neg (show ¬(idxv i < (if kindv i = rkind.rTo then lv i
              else rv i)
            ∨ idxv i > (if kindv i = rkind.rTo then rv i else lv i))
            from hoob)]
        simp [List.filter, hoob]

theorem length_filter_partition {α : Type} (p : α → Bool) (l : List α) :
    (l.filter p).length + (l.filter fun a => !p a).length = l.length := by
  induction l with
  | nil => rfl
  | cons a rest ih =>
      by_cases ha : p a = true
      · simp [List.filter, ha, ← ih]
        omega
      · simp [List.filter, ha, ← ih]
        omega

/-- C8 (amended): for an array reference whose every index folds to an
    integer against folded `to`/`downto` dimension bounds,
    `bounds_check_array_ref` emits one error per out-of-bounds index and,
    exactly when there is none, sets the `elide_bounds` attribute; with
    some out-of-bounds index the attribute is left unchanged. -/
theorem c8_array_ref_static (oty : Option ty) (value : tree)
    (ps : List paramT) (el : Bool) (vty : ty)
    (idxv lv rv : Nat → Int) (cl cr : Nat → Option ty)
    (kindv : Nat → rkind)
    (hty : tree_type value = some vty)
    (hcon : type_is_unconstrained vty = false)
    (H : ∀ j pj, ps.get? j = some pj →
      folded_int pj.value = some (idxv j)
      ∧ type_dim vty j = some (rangeB.mk (bnd.bInt (cl j) (lv j))
          (bnd.bInt (cr j) (rv j)) (kindv j))
      ∧ (kindv j = .rTo ∨ kindv j = .rDownto)) :
    bounds_check_array_ref (.arrayRef oty value ps el) = .ok
      (.arrayRef oty value ps
        (if ((List.range' 0 ps.length).filter
            fun k => decide (arrayRefOOB idxv lv rv kindv k)).length = 0
         then true else el),
       ((List.range' 0 ps.length).filter
          fun k => decide (arrayRefOOB idxv lv rv kindv k)).length)
    ∧ (((List.range' 0 ps.length).filter
          fun k => decide (arrayRefOOB idxv lv rv kindv k)).length = 0
        ↔ ∀ k, k < ps.length → ¬ arrayRefOOB idxv lv rv kindv k) := by
  have hloop := array_ref_loop_spec vty idxv lv rv cl cr kindv ps 0
    (by intro j pj hj; simpa using H j pj hj)
  have hpart := length_filter_partition
    (fun k => decide (arrayRefOOB idxv lv rv kindv k)) (List.range' 0 ps.length)
  have hlen : (List.range' 0 ps.length).length = ps.length := by simp
  constructor
  · unfold bounds_check_array_ref
    simp only [hty, bind, Except.bind]
    rw [if_neg (by simp [hcon])]
    simp only [hloop, bind, Except.bind, pure, Except.pure]
    by_cases hz : ((List.range' 0 ps.length).filter
        fun k => decide (arrayRefOOB idxv lv rv kindv k)).length = 0
    · rw [if_pos (by omega), if_pos hz]
    · rw [if_neg (by omega), if_neg hz]
  · constructor
    · intro hz k hk
      intro hoob
      have : k ∈ (List.range' 0 ps.length).filter
          fun k => decide (arrayRefOOB idxv lv rv kindv k) := by
        refine List.mem_filter.mpr ⟨?_, by simpa using hoob⟩
        simp [List.mem_range']
        omega
      rw [List.length_eq_zero] at hz
      rw [hz] at this
      exact absurd this (List.not_mem_nil k)
    · intro hall
      rw [List.length_eq_zero, List.filter_eq_nil]
      intro k hk
      have hk' : k < ps.length := by
        have := List.mem_range'.mp hk
        omega
      simpa using hall k hk'

/-- A two-dimensional constrained array type `0 to 7`, `0 to 7`. -/
def c_arrTy2 : ty := ty.tCarray
  [rangeB.mk (bnd.bInt none 0) (bnd.bInt none 7) .rTo,
   rangeB.mk (bnd.bInt none 0) (bnd.bInt none 7) .rTo] c_intTy

def c_aDecl2 : tree := tree.signalDecl (some c_arrTy2) "A" none

/-- `a(9, 9)` on a `0 to 7` × `0 to 7` array. -/
def c_aRef2 : tree := tree.arrayRef (some c_intTy)
  (tree.ref (some c_arrTy2) c_aDecl2)
  [paramT.mk .pPos 0 (c_il 9), paramT.mk .pPos 1 (c_il 9)] false

/-- Counterexample to C8 as stated: a reference with *two* static
    out-of-bounds indices gets two errors, not exactly one (and the
    attribute stays unset). -/
theorem c8_counterexample :
    bounds_check_array_ref c_aRef2 = .ok (c_aRef2, 2) ∧ (2 : Nat) ≠ 1 :=
  ⟨rfl, by omega⟩

/-- A one-dimensional constrained array type `0 to 7`. -/
def c_arrTy1 : ty := ty.tCarray
  [rangeB.mk (bnd.bInt none 0) (bnd.bInt none 7) .rTo] c_intTy

def c_aDecl1 : tree := tree.signalDecl (some c_arrTy1) "A" none

/-- Witness for C8 (amended): `a(3)` on `0 to 7` is marked
    `elide_bounds` with zero errors. -/
theorem c8_array_ref_static_witness :
    bounds_check_array_ref (.arrayRef (some c_intTy)
        (tree.ref (some c_arrTy1) c_aDecl1)
        [paramT.mk .pPos 0 (c_il 3)] false) = .ok
      (.arrayRef (some c_intTy) (tree.ref (some c_arrTy1) c_aDecl1)
        [paramT.mk .pPos 0 (c_il 3)]
        (if ((List.range' 0 [paramT.mk psubkind.pPos 0 (c_il 3)].length).filter
            fun k => decide (arrayRefOOB (fun _ => 3) (fun _ => 0)
              (fun _ => 7) (fun _ => rkind.rTo) k)).length = 0
         then true else false),
       ((List.range' 0 [paramT.mk psubkind.pPos 0 (c_il 3)].length).filter
          fun k => decide (arrayRefOOB (fun _ => 3) (fun _ => 0)
            (fun _ => 7) (fun _ => rkind.rTo) k)).length) :=
  (c8_array_ref_static (some c_intTy) (tree.ref (some c_arrTy1) c_aDecl1)
    [paramT.mk .pPos 0 (c_il 3)] false c_arrTy1
    (fun _ => 3) (fun _ => 0) (fun _ => 7) (fun _ => none) (fun _ => none)
    (fun _ => rkind.rTo) rfl rfl
    (by
      intro j pj hj
      match j, hj with
      | 0, hj =>
          cases hj
          exact ⟨rfl, rfl, Or.inl rfl⟩)).1

/-! ## C7: required choice count for array case statements -/

/-- `case_array_count` over range-free associations: it always succeeds,
    and with no `others` it counts exactly the named choices. -/
theorem case_array_count_spec (expect : Int) :
    ∀ (assocs : List assocT) (acc : Int),
    (∀ a ∈ assocs, (match a with
      | assocT.arange _ _ => False
      | _ => True)) →
    ∃ hv, case_array_count expect assocs acc = .ok hv
      ∧ ((∀ a ∈ assocs, (match a with
            | assocT.aothers _ => False
            | _ => True)) →
          hv = acc + ((assocs.filter fun a => match a with
            | assocT.anamed _ _ => true
            | _ => false).length : Int)) := by
  intro assocs
  induction assocs with
  | nil =>
      intro acc _
      exact ⟨acc, rfl, by intro _; simp⟩
  | cons a rest ih =>
      intro acc hno
      have hnorest : ∀ b ∈ rest, (match b with
          | assocT.arange _ _ => False
          | _ => True) := fun b hb => hno b (List.mem_cons_of_mem a hb)
      match a with
      | .anamed n stmt =>
          obtain ⟨hv, hcount, hchar⟩ := ih (acc + 1) hnorest
          refine ⟨hv, hcount, fun hothers => ?_⟩
          have hthis := hchar fun b hb =>
            hothers b (List.mem_cons_of_mem _ hb)
          have hf : ((assocT.anamed n stmt :: rest).filter fun a => match a with
              | assocT.anamed _ _ => true
              | _ => false).length
              = (rest.filter fun a => match a with
              | assocT.anamed _ _ => true
              | _ => false).length + 1 := by
            simp [List.filter]
          rw [hthis, hf]
          push_cast
          ring
      | .apos v =>
          obtain ⟨hv, hcount, hchar⟩ := ih acc hnorest
          refine ⟨hv, hcount, fun hothers => ?_⟩
          have := hchar fun b hb => hothers b (List.mem_cons_of_mem _ hb)
          simpa [List.filter] using this
      | .aothers v =>
          obtain ⟨hv, hcount, _⟩ := ih expect hnorest
          refine ⟨hv, hcount, fun hothers => ?_⟩
          exact absurd (hothers _ (List.mem_cons_self _ _)) (by simp)
      | .arange rng v =>
          exact absurd (hno _ (List.mem_cons_self _ _)) (by simp)

/-- C7 (amended): for an array case scrutinee with foldable element
    alphabet size `elemsz` and foldable length `len`, the required
    choice count is `INT64_MAX` exactly when `elemsz > INT32_MAX`
    (`2³¹−1`) — the saturation test is on the element alphabet size, not
    on `alphabet^length` — and otherwise `ipow elemsz len`; one error is
    emitted when the supplied choices (`others` covering the remainder,
    each named choice counting one) differ from that count. -/
theorem c7_case_array_expect (type : ty) (assocs : List assocT)
    (elemsz len : Int) (d0 : rangeB)
    (h1 : type_dim type 0 = some d0) (h2 : foldedB_length d0 = some len)
    (hno : ∀ a ∈ assocs, (match a with
      | assocT.arange _ _ => False
      | _ => True)) :
    ∃ hv, case_array_count (if elemsz > INT32_MAX then INT64_MAX
        else ipow elemsz len) assocs 0 = .ok hv
      ∧ bounds_check_case_array_tail type assocs elemsz = .ok
          (if hv ≠ (if elemsz > INT32_MAX then INT64_MAX
              else ipow elemsz len) then 1 else 0)
      ∧ ((∀ a ∈ assocs, (match a with
            | assocT.aothers _ => False
            | _ => True)) →
          hv = ((assocs.filter fun a => match a with
            | assocT.anamed _ _ => true
            | _ => false).length : Int)) := by
  obtain ⟨hv, hcount, hchar⟩ := case_array_count_spec
    (if elemsz > INT32_MAX then INT64_MAX else ipow elemsz len) assocs 0 hno
  refine ⟨hv, hcount, ?_, fun h => by simpa using hchar h⟩
  unfold bounds_check_case_array_tail
  simp only [h1, oassert, bind, Except.bind, pure, Except.pure, h2]
  rw [hcount]

def c_bitTy : ty := ty.tEnum "BIT" ["ZERO", "ONE"]

/-- `array (0 to 39) of BIT`. -/
def c_bv40Ty : ty := ty.tCarray
  [rangeB.mk (bnd.bInt none 0) (bnd.bInt none 39) .rTo] c_bitTy

def c_bvSig : tree := tree.signalDecl (some c_bv40Ty) "V" none

/-- A case over a 40-element BIT vector with a single named choice. -/
def c_case40 : tree := tree.scase (tree.ref (some c_bv40Ty) c_bvSig)
  [assocT.anamed (c_il 0) (c_il 0)]

/-- Counterexample to C7 as stated: with alphabet 2 and length 40 the
    checker's required count is `ipow 2 40 = 2^40`, which exceeds `2³¹`
    yet is *not* saturated to the `INT64_MAX` sentinel — the source only
    saturates when the element alphabet itself exceeds `INT32_MAX`
    (line 745). -/
theorem c7_counterexample :
    bounds_check_case c_case40 = .ok 1
    ∧ ipow 2 40 = 2 ^ 40
    ∧ 2 ^ 31 < (2 : Int) ^ 40
    ∧ ipow 2 40 ≠ INT64_MAX :=
  ⟨rfl, by decide, by norm_num, by decide⟩

/-- Witness for C7 (amended), at the 40-bit vector case above. -/
theorem c7_case_array_expect_witness :
    ∃ hv, case_array_count (if (2 : Int) > INT32_MAX then INT64_MAX
        else ipow 2 40) [assocT.anamed (c_il 0) (c_il 0)] 0 = .ok hv
      ∧ bounds_check_case_array_tail c_bv40Ty
          [assocT.anamed (c_il 0) (c_il 0)] 2 = .ok
          (if hv ≠ (if (2 : Int) > INT32_MAX then INT64_MAX
              else ipow 2 40) then 1 else 0)
      ∧ ((∀ a ∈ [assocT.anamed (c_il 0) (c_il 0)], (match a with
            | assocT.aothers _ => False
            | _ => True)) →
          hv = (([assocT.anamed (c_il 0) (c_il 0)].filter
            fun a => match a with
            | assocT.anamed _ _ => true
            | _ => false).length : Int)) :=
  c7_case_array_expect c_bv40Ty [assocT.anamed (c_il 0) (c_il 0)] 2 40
    (rangeB.mk (bnd.bInt none 0) (bnd.bInt none 39) .rTo) rfl rfl
    (by intro a ha; simp at ha; subst ha; simp)

/-! ## C4: integer case statements and the covered-interval list -/

/-- `x` is covered by some interval of the list. -/
def covMem (x : Int) (cov : List (Int × Int)) : Prop :=
  ∃ p ∈ cov, p.1 ≤ x ∧ x ≤ p.2

/-- Well-formed covered-interval list between `lo` and `hi`: sorted,
    pairwise disjoint, nonempty intervals inside `[lo, hi]`. -/
def covWF : Int → Int → List (Int × Int) → Prop
  | _, _, [] => True
  | lo, hi, p :: rest => lo ≤ p.1 ∧ p.1 ≤ p.2 ∧ p.2 ≤ hi ∧ covWF (p.2 + 1) hi rest

theorem covWF_mono {b b' hi : Int} {l : List (Int × Int)}
    (h : covWF b' hi l) (hb : ∀ p, l.head? = some p → b ≤ p.1) :
    covWF b hi l := by
  cases l with
  | nil => trivial
  | cons p rest =>
      obtain ⟨_, h2, h3, h4⟩ := h
      exact ⟨hb p rfl, h2, h3, h4⟩

theorem covMem_nil (x : Int) : ¬ covMem x [] := by
  intro ⟨p, hp, _⟩
  exact List.not_mem_nil p hp

theorem covMem_cons {x : Int} {p : Int × Int} {rest : List (Int × Int)} :
    covMem x (p :: rest) ↔ (p.1 ≤ x ∧ x ≤ p.2) ∨ covMem x rest := by
  constructor
  · rintro ⟨q, hq, hx⟩
    rcases List.mem_cons.mp hq with h | h
    · exact Or.inl (h ▸ hx)
    · exact Or.inr ⟨q, h, hx⟩
  · rintro (hx | ⟨q, hq, hx⟩)
    · exact ⟨p, List.mem_cons_self _ _, hx⟩
    · exact ⟨q, List.mem_cons_of_mem _ hq, hx⟩

/-- Inserting an interval that is disjoint from every covered value
    succeeds without a duplicate-coverage error and yields the union,
    preserving well-formedness. -/
theorem cover_insert (thigh : Int) :
    ∀ (cov : List (Int × Int)) (b lo hi : Int),
    covWF b thigh cov → b ≤ lo → lo ≤ hi → hi ≤ thigh →
    (∀ x, lo ≤ x → x ≤ hi → ¬ covMem x cov) →
    ∃ cov', bounds_case_cover cov lo hi = (cov', 0)
      ∧ covWF b thigh cov'
      ∧ (∀ x, covMem x cov' ↔ covMem x cov ∨ (lo ≤ x ∧ x ≤ hi)) := by
  intro cov
  induction cov with
  | nil =>
      intro b lo hi _ hblo hlohi hhith _
      refine ⟨[(lo, hi)], rfl, ⟨hblo, hlohi, hhith, trivial⟩, ?_⟩
      intro x
      rw [covMem_cons]
      simp [covMem_nil]
  | cons p rest ih =>
      intro b lo hi hwf hblo hlohi hhith hdisj
      obtain ⟨hbp, hp, hpth, hwfrest⟩ := hwf
      obtain ⟨il, ih'⟩ := p
      simp only at hbp hp hpth hwfrest
      unfold bounds_case_cover
      by_cases h1 : il ≤ hi
      · rw [if_pos h1]
        by_cases h2 : lo ≤ ih'
        · exfalso
          exact hdisj (max lo il) (le_max_left _ _)
            (max_le hlohi h1)
            (covMem_cons.mpr (Or.inl ⟨le_max_right _ _,
              max_le h2 hp⟩))
        · rw [if_neg h2]
          by_cases h3 : hi = il - 1
          · rw [if_pos h3]
            refine ⟨(lo, ih') :: rest, rfl,
              ⟨hblo, by omega, hpth, hwfrest⟩, ?_⟩
            intro x
            rw [covMem_cons, covMem_cons]
            constructor
            · rintro (hx | hx)
              · simp only at hx
                by_cases hxl : x ≤ hi
                · exact Or.inr ⟨hx.1, hxl⟩
                · exact Or.inl (Or.inl ⟨by omega, hx.2⟩)
              · exact Or.inl (Or.inr hx)
            · rintro ((hx | hx) | hx)
              · exact Or.inl ⟨by omega, hx.2⟩
              · exact Or.inr hx
              · exact Or.inl ⟨hx.1, by omega⟩
          · rw [if_neg h3]
            by_cases h4 : lo = ih' + 1
            · rw [if_pos h4]
              have hhead : ∀ q, rest.head? = some q → hi + 1 ≤ q.1 := by
                intro q hq
                by_contra hlt
                push_neg at hlt
                have hq1 : q.1 ≤ q.2 ∧ q.2 ≤ thigh ∧ ih' + 1 ≤ q.1 := by
                  cases rest with
                  | nil => exact nomatch hq
                  | cons r rr =>
                      cases Option.some.inj hq
                      obtain ⟨a1, a2, a3, _⟩ := hwfrest
                      exact ⟨a2, a3, a1⟩
                have hmem : covMem q.1 ((il, ih') :: rest) := by
                  rw [covMem_cons]
                  right
                  cases rest with
                  | nil => exact nomatch hq
                  | cons r rr =>
                      cases Option.some.inj hq
                      exact ⟨q, List.mem_cons_self _ _, le_refl _, hq1.1⟩
                exact hdisj q.1 (by omega) (by omega) hmem
              refine ⟨(il, hi) :: rest, rfl,
                ⟨hbp, by omega, hhith,
                 covWF_mono hwfrest hhead⟩, ?_⟩
              intro x
              rw [covMem_cons, covMem_cons]
              constructor
              · rintro (hx | hx)
                · simp only at hx
                  by_cases hxl : x ≤ ih'
                  · exact Or.inl (Or.inl ⟨hx.1, hxl⟩)
                  · exact Or.inr ⟨by omega, hx.2⟩
                · exact Or.inl (Or.inr hx)
              · rintro ((hx | hx) | hx)
                · exact Or.inl ⟨hx.1, by omega⟩
                · exact Or.inr hx
                · exact Or.inl ⟨by omega, hx.2⟩
            · rw [if_neg h4]
              have hdisj' : ∀ x, lo ≤ x → x ≤ hi → ¬ covMem x rest := by
                intro x hx1 hx2 hmem
                exact hdisj x hx1 hx2 (covMem_cons.mpr (Or.inr hmem))
              obtain ⟨rest', hins, hwf', hmem'⟩ := ih (ih' + 1) lo hi
                hwfrest (by omega) hlohi hhith hdisj'
              refine ⟨(il, ih') :: rest', by rw [hins], 
                ⟨hbp, hp, hpth, hwf'⟩, ?_⟩
              intro x
              rw [covMem_cons, covMem_cons, hmem' x]
              tauto
      · rw [if_neg h1]
        refine ⟨(lo, hi) :: (il, ih') :: rest, rfl,
          ⟨hblo, hlohi, hhith, by omega, hp, hpth, hwfrest⟩, ?_⟩
        intro x
        simp only [covMem_cons]
        tauto

/-- The integer interval contributed by one case choice: a named choice
    is the single folded value, a ranged choice spans its folded
    endpoints. -/
def choiceIv : assocT → Option (Int × Int)
  | .anamed name _ => (assume_int name).map fun v => (v, v)
  | .arange rng _ =>
      match assume_int rng.left, assume_int rng.right with
      | some lo, some hi => some (lo, hi)
      | _, _ => none
  | _ => none

/-- `x` is matched by the choice `a`. -/
def assocCovers (x : Int) (a : assocT) : Prop :=
  ∃ iv, choiceIv a = some iv ∧ iv.1 ≤ x ∧ x ≤ iv.2

/-- `x` is matched by some choice of the list. -/
def choicesMem (x : Int) (assocs : List assocT) : Prop :=
  ∃ a ∈ assocs, assocCovers x a

theorem choicesMem_nil (x : Int) : ¬ choicesMem x [] := by
  intro ⟨a, ha, _⟩
  exact List.not_mem_nil a ha

theorem choicesMem_cons {x : Int} {a : assocT} {rest : List assocT} :
    choicesMem x (a :: rest) ↔ assocCovers x a ∨ choicesMem x rest := by
  constructor
  · rintro ⟨b, hb, hx⟩
    rcases List.mem_cons.mp hb with h | h
    · exact Or.inl (h ▸ hx)
    · exact Or.inr ⟨b, h, hx⟩
  · rintro (hx | ⟨b, hb, hx⟩)
    · exact ⟨a, List.mem_cons_self _ _, hx⟩
    · exact ⟨b, List.mem_cons_of_mem _ hb, hx⟩

/-- The choice loop of the integer case branch: with no `others`,
    in-bounds non-null pairwise-disjoint choices, it emits no error and
    extends the covered list by exactly the choice values. -/
theorem case_int_loop_spec (tlow thigh : Int) :
    ∀ (assocs : List assocT) (cov : List (Int × Int)) (ho : Bool)
      (errs : Nat),
    (∀ a ∈ assocs, (match a with
      | assocT.aothers _ => False
      | assocT.apos _ => False
      | assocT.arange rng _ => rng.kind = rkind.rTo
      | _ => True)) →
    (∀ a ∈ assocs, ∃ iv, choiceIv a = some iv ∧ tlow ≤ iv.1
      ∧ iv.1 ≤ iv.2 ∧ iv.2 ≤ thigh) →
    List.Pairwise (fun a b => ∀ x, ¬(assocCovers x a ∧ assocCovers x b))
      assocs →
    covWF tlow thigh cov →
    (∀ x, covMem x cov → ¬ choicesMem x assocs) →
    ∃ cov', bounds_case_int_loop tlow thigh assocs ho cov errs
        = .ok (ho, cov', errs)
      ∧ covWF tlow thigh cov'
      ∧ (∀ x, covMem x cov' ↔ covMem x cov ∨ choicesMem x assocs) := by
  intro assocs
  induction assocs with
  | nil =>
      intro cov ho errs _ _ _ hwf _
      refine ⟨cov, rfl, hwf, fun x => ?_⟩
      simp [choicesMem_nil]
  | cons a rest ih =>
      intro cov ho errs hkinds hivs hpw hwf hdisj
      obtain ⟨iv, hiv, hivlo, hivne, hivhi⟩ := hivs a (List.mem_cons_self _ _)
      obtain ⟨lo, hi⟩ := iv
      simp only at hivlo hivne hivhi
      have hinsert := cover_insert thigh cov tlow lo hi hwf hivlo hivne hivhi
        (by
          intro x hx1 hx2 hmem
          exact hdisj x hmem (choicesMem_cons.mpr
            (Or.inl ⟨(lo, hi), hiv, hx1, hx2⟩)))
      obtain ⟨cov', hins, hwf', hmem'⟩ := hinsert
      have hrest := ih cov' ho errs
        (fun b hb => hkinds b (List.mem_cons_of_mem _ hb))
        (fun b hb => hivs b (List.mem_cons_of_mem _ hb))
        hpw.of_cons
        hwf'
        (by
          intro x hmem hrest
          rcases (hmem' x).mp hmem with h | h
          · exact hdisj x h (choicesMem_cons.mpr (Or.inr hrest))
          · obtain ⟨b, hb, hcov⟩ := hrest
            exact (List.rel_of_pairwise_cons hpw hb) x
              (⟨⟨(lo, hi), hiv, h.1, h.2⟩, hcov⟩))
      obtain ⟨cov'', hloop, hwf'', hmem''⟩ := hrest
      refine ⟨cov'', ?_, hwf'', ?_⟩
      · match a, hiv, hkinds a (List.mem_cons_self _ _) with
        | .anamed name stmt, hiv, _ =>
            have hai : assume_int name = some lo ∧ lo = hi := by
              simp only [choiceIv] at hiv
              cases hia : assume_int name with
              | none => simp [hia] at hiv
              | some v =>
                  simp [hia] at hiv
                  exact ⟨by rw [hiv.1], by omega⟩
            simp only [bounds_case_int_loop]
            rw [hai.1]
            simp only [ofatal, bind, Except.bind, pure, Except.pure]
            rw [if_neg (by omega)]
            rw [show bounds_case_cover cov lo lo = (cov', 0) by
              rw [← hai.2] at hins
              exact hins]
            simpa using hloop
        | .arange rng stmt, hiv, hkind =>
            have hai : assume_int rng.left = some lo
                ∧ assume_int rng.right = some hi := by
              simp only [choiceIv] at hiv
              cases hl : assume_int rng.left with
              | none => simp [hl] at hiv
              | some v =>
                  cases hr : assume_int rng.right with
                  | none => simp [hl, hr] at hiv
                  | some w =>
                      simp [hl, hr] at hiv
                      exact ⟨by rw [hiv.1], by rw [hiv.2]⟩
            simp only [bounds_case_int_loop]
            rw [if_neg (by simp [hkind])]
            rw [hai.1, hai.2]
            simp only [ofatal, bind, Except.bind, pure, Except.pure]
            rw [if_neg (by omega), hins]
            simpa using hloop
      · intro x
        rw [hmem'' x, hmem' x, choicesMem_cons]
        have : assocCovers x a ↔ (lo ≤ x ∧ x ≤ hi) := by
          constructor
          · rintro ⟨iv', hiv', hx⟩
            rw [hiv] at hiv'
            cases Option.some.inj hiv'
            exact hx
          · intro hx
            exact ⟨(lo, hi), hiv, hx⟩
        rw [this]
        tauto

theorem covMem_bounds (thigh : Int) :
    ∀ (cov : List (Int × Int)) (b x : Int),
    covWF b thigh cov → covMem x cov → b ≤ x ∧ x ≤ thigh := by
  intro cov
  induction cov with
  | nil =>
      intro b x _ hmem
      exact absurd hmem (covMem_nil x)
  | cons p rest ih =>
      intro b x hwf hmem
      obtain ⟨l, h⟩ := p
      obtain ⟨h1, h2, h3, h4⟩ := hwf
      rcases covMem_cons.mp hmem with hx | hx
      · simp only at hx
        omega
      · have := ih (h + 1) x h4 hx
        omega

/-- The missing-interval walk over a well-formed covered list reports
    exactly the uncovered values of `[w, thigh]`, as nonempty ordered
    intervals. -/
theorem missing_walk_spec (thigh : Int) :
    ∀ (cov : List (Int × Int)) (w : Int),
    covWF w thigh cov → w ≤ thigh + 1 →
    (∀ p ∈ bounds_case_missing_walk cov w thigh,
      p.1 ≤ p.2 ∧ w ≤ p.1 ∧ p.2 ≤ thigh)
    ∧ (∀ x, (∃ p ∈ bounds_case_missing_walk cov w thigh,
        p.1 ≤ x ∧ x ≤ p.2)
      ↔ (w ≤ x ∧ x ≤ thigh ∧ ¬ covMem x cov)) := by
  intro cov
  induction cov with
  | nil =>
      intro w _ hwth
      unfold bounds_case_missing_walk
      by_cases hw : w = thigh + 1
      · rw [if_neg (by omega)]
        constructor
        · intro p hp
          exact absurd hp (List.not_mem_nil p)
        · intro x
          simp [covMem_nil]
          omega
      · rw [if_pos (by omega)]
        constructor
        · intro p hp
          rcases List.mem_cons.mp hp with h | h
          · subst h
            simp
            omega
          · exact absurd h (List.not_mem_nil p)
        · intro x
          simp [covMem_nil]
  | cons p rest ih =>
      intro w hwf hwth
      obtain ⟨l, h⟩ := p
      obtain ⟨h1, h2, h3, h4⟩ := hwf
      simp only at h1 h2 h3 h4
      obtain ⟨ih1, ih2⟩ := ih (h + 1) h4 (by omega)
      unfold bounds_case_missing_walk
      constructor
      · intro q hq
        rcases List.mem_append.mp hq with hql | hqr
        · by_cases hlw : l ≠ w
          · rw [if_pos hlw] at hql
            rcases List.mem_cons.mp hql with hh | hh
            · subst hh
              simp
              omega
            · exact absurd hh (List.not_mem_nil q)
          · rw [if_neg hlw] at hql
            exact absurd hql (List.not_mem_nil q)
        · have := ih1 q hqr
          refine ⟨this.1, by omega, this.2.2⟩
      · intro x
        rw [covMem_cons]
        simp only
        constructor
        · rintro ⟨q, hq, hx⟩
          rcases List.mem_append.mp hq with hql | hqr
          · by_cases hlw : l ≠ w
            · rw [if_pos hlw] at hql
              rcases List.mem_cons.mp hql with hh | hh
              · subst hh
                simp only at hx
                refine ⟨by omega, by omega, ?_⟩
                rintro (hc | hc)
                · omega
                · have := covMem_bounds thigh rest (h + 1) x h4 hc
                  omega
              · exact absurd hh (List.not_mem_nil q)
            · rw [if_neg hlw] at hql
              exact absurd hql (List.not_mem_nil q)
          · have hmem := (ih2 x).mp ⟨q, hqr, hx⟩
            refine ⟨by omega, hmem.2.1, ?_⟩
            rintro (hc | hc)
            · omega
            · exact hmem.2.2 hc
        · rintro ⟨hwx, hxth, hnc⟩
          by_cases hxl : x < l
          · have hlw : l ≠ w := by omega
            refine ⟨(w, l - 1), List.mem_append.mpr
              (Or.inl (by rw [if_pos hlw]; exact List.mem_cons_self _ _)),
              by simp; omega⟩
          · have hxh : h < x := by
              by_contra hle
              push_neg at hle
              exact hnc (Or.inl ⟨by omega, hle⟩)
            have hrest : ¬ covMem x rest := fun hc => hnc (Or.inr hc)
            obtain ⟨q, hq, hx⟩ := (ih2 x).mpr ⟨by omega, hxth, hrest⟩
            exact ⟨q, List.mem_append.mpr (Or.inr hq), hx⟩

/-- C4: for an integer case statement without `others`, with folded type
    bounds `[tlow, thigh]` and pairwise non-overlapping choices that are
    additionally non-null, ascending, and within the type bounds (the
    amendment - see the counterexample), the choice loop itself emits no
    error, the whole check emits at most a single error (one exactly when
    something is missing), and the missing intervals are nonempty, lie in
    `[tlow, thigh]`, and exactly partition `[tlow, thigh]` minus the
    union of the choice values. -/
theorem c4_case_int_partition (tlow thigh : Int) (assocs : List assocT)
    (hth : tlow ≤ thigh)
    (hno : ∀ a ∈ assocs, (match a with
      | assocT.aothers _ => False
      | assocT.apos _ => False
      | assocT.arange rng _ => rng.kind = rkind.rTo
      | _ => True))
    (hiv : ∀ a ∈ assocs, ∃ iv, choiceIv a = some iv ∧ tlow ≤ iv.1
      ∧ iv.1 ≤ iv.2 ∧ iv.2 ≤ thigh)
    (hpw : List.Pairwise
      (fun a b => ∀ x, ¬(assocCovers x a ∧ assocCovers x b)) assocs) :
    ∃ cov, bounds_case_int_loop tlow thigh assocs false [] 0
        = .ok (false, cov, 0)
      ∧ bounds_check_case_int tlow thigh assocs
          = .ok (if (bounds_case_missing_walk cov tlow thigh).isEmpty
              then 0 else 1)
      ∧ (∀ p ∈ bounds_case_missing_walk cov tlow thigh,
          p.1 ≤ p.2 ∧ tlow ≤ p.1 ∧ p.2 ≤ thigh)
      ∧ (∀ x, (∃ p ∈ bounds_case_missing_walk cov tlow thigh,
            p.1 ≤ x ∧ x ≤ p.2)
          ↔ (tlow ≤ x ∧ x ≤ thigh ∧ ¬ choicesMem x assocs)) := by
  obtain ⟨cov, hloop, hwf, hmem⟩ :=
    case_int_loop_spec tlow thigh assocs [] false 0 hno hiv hpw trivial
      (fun x hc => absurd hc (covMem_nil x))
  obtain ⟨hintv, hiff⟩ := missing_walk_spec thigh cov tlow hwf (by omega)
  refine ⟨cov, hloop, ?_, hintv, ?_⟩
  · simp only [bounds_check_case_int, hloop, bind, Except.bind,
      Bool.false_eq_true, if_false, Nat.zero_add, pure, Except.pure]
  · intro x
    rw [hiff x]
    have := hmem x
    simp only [covMem_nil x, false_or] at this
    rw [this]

/-- An integer subtype with bounds 0 to 3. -/
def c_int03Ty : ty :=
  ty.tInteger [rangeB.mk (bnd.bInt none 0) (bnd.bInt none 3) rkind.rTo]

/-- A signal of that subtype. -/
def c_iSig3 : tree := tree.signalDecl (some c_int03Ty) "I3" none

/-- A case statement on it whose only choice, `10`, is out of bounds
    (but trivially non-overlapping). -/
def c_caseOOB : tree :=
  tree.scase (tree.ref (some c_int03Ty) c_iSig3)
    [assocT.anamed (c_il 10) (c_il 0)]

/-- An integer subtype with bounds 0 to 10. -/
def c_int010Ty : ty :=
  ty.tInteger [rangeB.mk (bnd.bInt none 0) (bnd.bInt none 10) rkind.rTo]

/-- A signal of that subtype. -/
def c_iSig10 : tree := tree.signalDecl (some c_int010Ty) "I10" none

/-- A case statement whose first choice `5 to 4` is a null range - it
    covers no value, so the two choices do not overlap - yet the
    covered-interval insertion of the second choice `3 to 6` collides
    with the empty interval recorded for it. -/
def c_caseNull : tree :=
  tree.scase (tree.ref (some c_int010Ty) c_iSig10)
    [assocT.arange (rangeE.mk (c_il 5) (c_il 4) rkind.rTo) (c_il 0),
     assocT.arange (rangeE.mk (c_il 3) (c_il 6) rkind.rTo) (c_il 0)]

/-- C4 counterexample: two integer case statements without `others` and
    with non-overlapping choices on which the checker emits TWO errors,
    not at most one: an out-of-bounds choice, and a null-range choice
    that makes a later disjoint choice collide in the interval list.
    The claim needs its choices also in bounds and non-null. -/
theorem c4_counterexample :
    bounds_check_case c_caseOOB = .ok 2
    ∧ bounds_check_case c_caseNull = .ok 2
    ∧ 2 > 1 := ⟨rfl, rfl, by omega⟩

/-- The choices of spec scenario 6: `0` and `2 to 5` against type bounds
    0 to 7. -/
def c_w4Assocs : List assocT :=
  [assocT.anamed (c_il 0) (c_il 0),
   assocT.arange (rangeE.mk (c_il 2) (c_il 5) rkind.rTo) (c_il 0)]

/-- C4 witness: spec scenario 6 - choices `0` and `2 to 5` against
    bounds 0 to 7 satisfy the amended hypotheses. -/
theorem c4_case_int_partition_witness :
    ∃ cov, bounds_case_int_loop 0 7 c_w4Assocs false [] 0
        = .ok (false, cov, 0)
      ∧ bounds_check_case_int 0 7 c_w4Assocs
          = .ok (if (bounds_case_missing_walk cov 0 7).isEmpty
              then 0 else 1)
      ∧ (∀ p ∈ bounds_case_missing_walk cov 0 7,
          p.1 ≤ p.2 ∧ 0 ≤ p.1 ∧ p.2 ≤ 7)
      ∧ (∀ x, (∃ p ∈ bounds_case_missing_walk cov 0 7,
            p.1 ≤ x ∧ x ≤ p.2)
          ↔ (0 ≤ x ∧ x ≤ 7 ∧ ¬ choicesMem x c_w4Assocs)) :=
  c4_case_int_partition 0 7 c_w4Assocs (by decide)
    (by
      intro a ha
      rcases List.mem_cons.mp ha with h | h
      · subst h; trivial
      · rcases List.mem_cons.mp h with h2 | h2
        · subst h2; rfl
        · exact absurd h2 (List.not_mem_nil a))
    (by
      intro a ha
      rcases List.mem_cons.mp ha with h | h
      · subst h
        exact ⟨(0, 0), rfl, by decide, by decide, by decide⟩
      · rcases List.mem_cons.mp h with h2 | h2
        · subst h2
          exact ⟨(2, 5), rfl, by decide, by decide, by decide⟩
        · exact absurd h2 (List.not_mem_nil a))
    (by
      refine List.Pairwise.cons ?_ (List.Pairwise.cons ?_ List.Pairwise.nil)
      · intro b hb x hx
        rcases List.mem_cons.mp hb with h | h
        · subst h
          obtain ⟨⟨iv1, hiv1, h1a, h1b⟩, ⟨iv2, hiv2, h2a, h2b⟩⟩ := hx
          simp [choiceIv, c_il, assume_int, rangeE.left,
            rangeE.right] at hiv1 hiv2
          subst hiv1; subst hiv2
          simp at h1a h1b h2a h2b
          omega
        · exact absurd h (List.not_mem_nil b)
      · intro b hb
        exact absurd hb (List.not_mem_nil b))

/-! ## C9: idempotence of the bounds checker -/

theorem ebind_ok {α β : Type} {f : Except efatal α} {g : α → Except efatal β}
    {b : β} (h : (f >>= g) = Except.ok b) :
    ∃ a, f = Except.ok a ∧ g a = Except.ok b := by
  cases f with
  | error e => simp [Bind.bind, Except.bind] at h
  | ok a => exact ⟨a, rfl, by simpa [Bind.bind, Except.bind] using h⟩

theorem epure_eq {α : Type} {a b : α}
    (h : (pure a : Except efatal α) = Except.ok b) : a = b := by
  simpa [pure, Except.pure] using h

/-- On every node that is not an array reference, the per-node dispatch
    returns the node itself. -/
theorem bounds_visit_fn_ret {t r : tree} {e : Nat} {f : Except efatal Nat}
    (hdef : bounds_visit_fn t = (do let x ← f; pure (t, x)))
    (h : bounds_visit_fn t = Except.ok (r, e)) : r = t ∧ f = Except.ok e := by
  rw [hdef] at h
  obtain ⟨x, hx, h⟩ := ebind_ok h
  obtain ⟨h1, h2⟩ := Prod.mk.injEq .. ▸ epure_eq h
  exact ⟨h1.symm, by rw [hx, h2]⟩

/-- Other than on an array reference, `bounds_visit_fn` never rewrites
    the node. -/
theorem bounds_visit_fn_pres (t r : tree) (e : Nat)
    (hne : ∀ oty value ps elide, t ≠ tree.arrayRef oty value ps elide)
    (h : bounds_visit_fn t = Except.ok (r, e)) : r = t := by
  cases t <;>
    first
    | exact absurd rfl (hne _ _ _ _)
    | exact (bounds_visit_fn_ret rfl h).1
    | exact ((Prod.mk.injEq .. ▸ epure_eq h).1).symm

/-- Re-running the array-reference check on its own output returns the
    same node and the same error count: the check never reads the
    `elide_bounds` mark it writes. -/
theorem bounds_check_array_ref_again (oty : Option ty) (value : tree)
    (ps : List paramT) (elide : Bool) (r : tree) (e : Nat)
    (h : bounds_check_array_ref (tree.arrayRef oty value ps elide)
      = Except.ok (r, e)) :
    (∃ el, r = tree.arrayRef oty value ps el)
    ∧ bounds_check_array_ref r = Except.ok (r, e) := by
  simp only [bounds_check_array_ref] at h
  cases htt : tree_type value with
  | none =>
      simp only [htt] at h
      obtain ⟨h1, h2⟩ := Prod.mk.injEq .. ▸ epure_eq h
      subst h2
      refine ⟨⟨elide, h1.symm⟩, ?_⟩
      rw [← h1]
      simp [bounds_check_array_ref, htt, pure, Except.pure]
  | some vt =>
      simp only [htt] at h
      by_cases hu : type_is_unconstrained vt = true
      · rw [if_pos hu] at h
        obtain ⟨h1, h2⟩ := Prod.mk.injEq .. ▸ epure_eq h
        subst h2
        refine ⟨⟨elide, h1.symm⟩, ?_⟩
        rw [← h1]
        simp [bounds_check_array_ref, htt, hu, pure, Except.pure]
      · rw [if_neg hu] at h
        cases hlp : array_ref_loop vt ps 0 with
        | error err => simp [hlp, Bind.bind, Except.bind] at h
        | ok p =>
            obtain ⟨e', ns⟩ := p
            simp only [hlp, Bind.bind, Except.bind] at h
            by_cases hns : ns = ps.length
            · rw [if_pos hns] at h
              obtain ⟨h1, h2⟩ := Prod.mk.injEq .. ▸ epure_eq h
              subst h2
              refine ⟨⟨true, h1.symm⟩, ?_⟩
              rw [← h1]
              simp [bounds_check_array_ref, htt, hu, hlp, hns,
                Bind.bind, Except.bind, pure, Except.pure]
            · rw [if_neg hns] at h
              obtain ⟨h1, h2⟩ := Prod.mk.injEq .. ▸ epure_eq h
              subst h2
              refine ⟨⟨elide, h1.symm⟩, ?_⟩
              rw [← h1]
              simp [bounds_check_array_ref, htt, hu, hlp, hns,
                Bind.bind, Except.bind, pure, Except.pure]

theorem visit_rebuild1 {α γ : Type} (vA : α → Except efatal (α × Nat))
    (mk : α → γ) (a : α) (r : γ) (n : Nat)
    (hA : ∀ x m, vA a = Except.ok (x, m) → vA x = Except.ok (x, m))
    (h : (do
        let (x, n₁) ← vA a
        pure ((mk x, n₁) : γ × Nat)) = Except.ok (r, n)) :
    ∃ a', r = mk a'
      ∧ (do
          let (x, n₁) ← vA a'
          pure ((mk x, n₁) : γ × Nat)) = Except.ok (r, n) := by
  obtain ⟨⟨a', n₁⟩, hva, h⟩ := ebind_ok h
  obtain ⟨h1, h2⟩ := Prod.mk.injEq .. ▸ epure_eq h
  refine ⟨a', h1.symm, ?_⟩
  rw [hA a' n₁ hva]
  simp [Bind.bind, Except.bind, pure, Except.pure, h1, h2]

theorem visit_rebuild2 {α β γ : Type} (vA : α → Except efatal (α × Nat))
    (vB : β → Except efatal (β × Nat))
    (mk : α → β → γ) (a : α) (b : β) (r : γ) (n : Nat)
    (hA : ∀ x m, vA a = Except.ok (x, m) → vA x = Except.ok (x, m))
    (hB : ∀ x m, vB b = Except.ok (x, m) → vB x = Except.ok (x, m))
    (h : (do
        let (x, n₁) ← vA a
        let (y, n₂) ← vB b
        pure ((mk x y, n₁ + n₂) : γ × Nat)) = Except.ok (r, n)) :
    ∃ a' b', r = mk a' b'
      ∧ (do
          let (x, n₁) ← vA a'
          let (y, n₂) ← vB b'
          pure ((mk x y, n₁ + n₂) : γ × Nat)) = Except.ok (r, n) := by
  obtain ⟨⟨a', n₁⟩, hva, h⟩ := ebind_ok h
  obtain ⟨⟨b', n₂⟩, hvb, h⟩ := ebind_ok h
  obtain ⟨h1, h2⟩ := Prod.mk.injEq .. ▸ epure_eq h
  refine ⟨a', b', h1.symm, ?_⟩
  rw [hA a' n₁ hva]
  simp only [Bind.bind, Except.bind]
  rw [hB b' n₂ hvb]
  simp [Bind.bind, Except.bind, pure, Except.pure, h1, h2]

theorem visit_rebuild3 {α β δ γ : Type} (vA : α → Except efatal (α × Nat))
    (vB : β → Except efatal (β × Nat)) (vC : δ → Except efatal (δ × Nat))
    (mk : α → β → δ → γ) (a : α) (b : β) (c : δ) (r : γ) (n : Nat)
    (hA : ∀ x m, vA a = Except.ok (x, m) → vA x = Except.ok (x, m))
    (hB : ∀ x m, vB b = Except.ok (x, m) → vB x = Except.ok (x, m))
    (hC : ∀ x m, vC c = Except.ok (x, m) → vC x = Except.ok (x, m))
    (h : (do
        let (x, n₁) ← vA a
        let (y, n₂) ← vB b
        let (z, n₃) ← vC c
        pure ((mk x y z, n₁ + n₂ + n₃) : γ × Nat)) = Except.ok (r, n)) :
    ∃ a' b' c', r = mk a' b' c'
      ∧ (do
          let (x, n₁) ← vA a'
          let (y, n₂) ← vB b'
          let (z, n₃) ← vC c'
          pure ((mk x y z, n₁ + n₂ + n₃) : γ × Nat)) = Except.ok (r, n) := by
  obtain ⟨⟨a', n₁⟩, hva, h⟩ := ebind_ok h
  obtain ⟨⟨b', n₂⟩, hvb, h⟩ := ebind_ok h
  obtain ⟨⟨c', n₃⟩, hvc, h⟩ := ebind_ok h
  obtain ⟨h1, h2⟩ := Prod.mk.injEq .. ▸ epure_eq h
  refine ⟨a', b', c', h1.symm, ?_⟩
  rw [hA a' n₁ hva]
  simp only [Bind.bind, Except.bind]
  rw [hB b' n₂ hvb]
  simp only [Bind.bind, Except.bind]
  rw [hC c' n₃ hvc]
  simp [Bind.bind, Except.bind, pure, Except.pure, h1, h2]

theorem visit_step1 {α : Type} (vA : α → Except efatal (α × Nat))
    (mk : α → tree) (a : α) (r : tree) (n : Nat)
    (hA : ∀ x m, vA a = Except.ok (x, m) → vA x = Except.ok (x, m))
    (hfn : ∀ x s e, bounds_visit_fn (mk x) = Except.ok (s, e) → s = mk x)
    (h : (do
        let (x, n₁) ← vA a
        let (t', n₂) ← bounds_visit_fn (mk x)
        pure ((t', n₁ + n₂) : tree × Nat)) = Except.ok (r, n)) :
    ∃ a', r = mk a'
      ∧ (do
          let (x, n₁) ← vA a'
          let (t', n₂) ← bounds_visit_fn (mk x)
          pure ((t', n₁ + n₂) : tree × Nat)) = Except.ok (r, n) := by
  obtain ⟨⟨a', n₁⟩, hva, h⟩ := ebind_ok h
  obtain ⟨⟨t', n₂⟩, hf, h⟩ := ebind_ok h
  obtain ⟨h1, h2⟩ := Prod.mk.injEq .. ▸ epure_eq h
  have hp := hfn a' t' n₂ hf
  refine ⟨a', h1 ▸ hp, ?_⟩
  rw [hA a' n₁ hva]
  simp only [Bind.bind, Except.bind]
  rw [hf]
  simp [Bind.bind, Except.bind, pure, Except.pure, h1, h2]

theorem visit_step2 {α β : Type} (vA : α → Except efatal (α × Nat))
    (vB : β → Except efatal (β × Nat))
    (mk : α → β → tree) (a : α) (b : β) (r : tree) (n : Nat)
    (hA : ∀ x m, vA a = Except.ok (x, m) → vA x = Except.ok (x, m))
    (hB : ∀ x m, vB b = Except.ok (x, m) → vB x = Except.ok (x, m))
    (hfn : ∀ x y s e, bounds_visit_fn (mk x y) = Except.ok (s, e)
      → s = mk x y)
    (h : (do
        let (x, n₁) ← vA a
        let (y, n₂) ← vB b
        let (t', n₃) ← bounds_visit_fn (mk x y)
        pure ((t', n₁ + n₂ + n₃) : tree × Nat)) = Except.ok (r, n)) :
    ∃ a' b', r = mk a' b'
      ∧ (do
          let (x, n₁) ← vA a'
          let (y, n₂) ← vB b'
          let (t', n₃) ← bounds_visit_fn (mk x y)
          pure ((t', n₁ + n₂ + n₃) : tree × Nat)) = Except.ok (r, n) := by
  obtain ⟨⟨a', n₁⟩, hva, h⟩ := ebind_ok h
  obtain ⟨⟨b', n₂⟩, hvb, h⟩ := ebind_ok h
  obtain ⟨⟨t', n₃⟩, hf, h⟩ := ebind_ok h
  obtain ⟨h1, h2⟩ := Prod.mk.injEq .. ▸ epure_eq h
  have hp := hfn a' b' t' n₃ hf
  refine ⟨a', b', h1 ▸ hp, ?_⟩
  rw [hA a' n₁ hva]
  simp only [Bind.bind, Except.bind]
  rw [hB b' n₂ hvb]
  simp only [Bind.bind, Except.bind]
  rw [hf]
  simp [Bind.bind, Except.bind, pure, Except.pure, h1, h2]

theorem visit_step3 {α β δ : Type} (vA : α → Except efatal (α × Nat))
    (vB : β → Except efatal (β × Nat)) (vC : δ → Except efatal (δ × Nat))
    (mk : α → β → δ → tree) (a : α) (b : β) (c : δ) (r : tree) (n : Nat)
    (hA : ∀ x m, vA a = Except.ok (x, m) → vA x = Except.ok (x, m))
    (hB : ∀ x m, vB b = Except.ok (x, m) → vB x = Except.ok (x, m))
    (hC : ∀ x m, vC c = Except.ok (x, m) → vC x = Except.ok (x, m))
    (hfn : ∀ x y z s e, bounds_visit_fn (mk x y z) = Except.ok (s, e)
      → s = mk x y z)
    (h : (do
        let (x, n₁) ← vA a
        let (y, n₂) ← vB b
        let (z, n₃) ← vC c
        let (t', n₄) ← bounds_visit_fn (mk x y z)
        pure ((t', n₁ + n₂ + n₃ + n₄) : tree × Nat)) = Except.ok (r, n)) :
    ∃ a' b' c', r = mk a' b' c'
      ∧ (do
          let (x, n₁) ← vA a'
          let (y, n₂) ← vB b'
          let (z, n₃) ← vC c'
          let (t', n₄) ← bounds_visit_fn (mk x y z)
          pure ((t', n₁ + n₂ + n₃ + n₄) : tree × Nat))
        = Except.ok (r, n) := by
  obtain ⟨⟨a', n₁⟩, hva, h⟩ := ebind_ok h
  obtain ⟨⟨b', n₂⟩, hvb, h⟩ := ebind_ok h
  obtain ⟨⟨c', n₃⟩, hvc, h⟩ := ebind_ok h
  obtain ⟨⟨t', n₄⟩, hf, h⟩ := ebind_ok h
  obtain ⟨h1, h2⟩ := Prod.mk.injEq .. ▸ epure_eq h
  have hp := hfn a' b' c' t' n₄ hf
  refine ⟨a', b', c', h1 ▸ hp, ?_⟩
  rw [hA a' n₁ hva]
  simp only [Bind.bind, Except.bind]
  rw [hB b' n₂ hvb]
  simp only [Bind.bind, Except.bind]
  rw [hC c' n₃ hvc]
  simp only [Bind.bind, Except.bind]
  rw [hf]
  simp [Bind.bind, Except.bind, pure, Except.pure, h1, h2]

set_option maxHeartbeats 4000000 in
/-- One full visit is idempotent: re-visiting the rewritten tree returns
    it unchanged with the same error count. -/
theorem bounds_visit_idem : ∀ (t r : tree) (n : Nat),
    bounds_visit t = Except.ok (r, n) →
    bounds_visit r = Except.ok (r, n) := by
  refine bounds_visit.induct
    (fun t => ∀ r n, bounds_visit t = Except.ok (r, n) →
      bounds_visit r = Except.ok (r, n))
    (fun o => ∀ r n, bounds_visit_opt o = Except.ok (r, n) →
      bounds_visit_opt r = Except.ok (r, n))
    (fun l => ∀ r n, bounds_visit_list l = Except.ok (r, n) →
      bounds_visit_list r = Except.ok (r, n))
    (fun a => ∀ r n, bounds_visit_assocs a = Except.ok (r, n) →
      bounds_visit_assocs r = Except.ok (r, n))
    (fun g => ∀ r n, bounds_visit_range g = Except.ok (r, n) →
      bounds_visit_range r = Except.ok (r, n))
    (fun p => ∀ r n, bounds_visit_params p = Except.ok (r, n) →
      bounds_visit_params r = Except.ok (r, n))
    ?_ ?_ ?_ ?_ ?_ ?_ ?_ ?_ ?_ ?_ ?_ ?_ ?_ ?_ ?_ ?_ ?_ ?_
    ?_ ?_ ?_ ?_ ?_ ?_ ?_ ?_ ?_ ?_ ?_ ?_ ?_ ?_ ?_ ?_ ?_
  · -- ref
    intro oty decl r n h
    simp only [bounds_visit] at h
    have hr := ((Prod.mk.injEq .. ▸ epure_eq h).1).symm
    subst hr
    simp only [bounds_visit]
    exact h
  · -- fcall
    intro oty decl ps hps r n h
    simp only [bounds_visit] at h
    obtain ⟨ps', hr, h2⟩ := visit_step1 bounds_visit_params
      (fun x => tree.fcall oty decl x) ps r n hps
      (fun x s e hh => (bounds_visit_fn_ret rfl hh).1) h
    subst hr
    simp only [bounds_visit]
    exact h2
  · -- pcall
    intro decl ps hps r n h
    simp only [bounds_visit] at h
    obtain ⟨ps', hr, h2⟩ := visit_step1 bounds_visit_params
      (fun x => tree.pcall decl x) ps r n hps
      (fun x s e hh => (bounds_visit_fn_ret rfl hh).1) h
    subst hr
    simp only [bounds_visit]
    exact h2
  · -- typeConv
    intro oty ps hps r n h
    simp only [bounds_visit] at h
    obtain ⟨ps', hr, h2⟩ := visit_step1 bounds_visit_params
      (fun x => tree.typeConv oty x) ps r n hps
      (fun x s e hh => (bounds_visit_fn_ret rfl hh).1) h
    subst hr
    simp only [bounds_visit]
    exact h2
  · -- arrayRef
    intro oty value ps elide hv hps r n h
    simp only [bounds_visit] at h
    obtain ⟨⟨value', n₁⟩, hva, h⟩ := ebind_ok h
    obtain ⟨⟨ps', n₂⟩, hpa, h⟩ := ebind_ok h
    obtain ⟨⟨t', n₃⟩, hf, h⟩ := ebind_ok h
    obtain ⟨h1, h2⟩ := Prod.mk.injEq .. ▸ epure_eq h
    obtain ⟨⟨el, hel⟩, hagain⟩ :=
      bounds_check_array_ref_again oty value' ps' elide t' n₃ hf
    subst h1
    subst hel
    simp only [bounds_visit]
    rw [hv value' n₁ hva]
    simp only [Bind.bind, Except.bind]
    rw [hps ps' n₂ hpa]
    simp only [Bind.bind, Except.bind]
    have hfn2 : bounds_visit_fn (tree.arrayRef oty value' ps' el)
        = Except.ok (tree.arrayRef oty value' ps' el, n₃) := hagain
    rw [hfn2]
    simp [Bind.bind, Except.bind, pure, Except.pure, h2]
  · -- arraySlice
    intro oty value rng hv hg r n h
    simp only [bounds_visit] at h
    obtain ⟨v', g', hr, h2⟩ := visit_step2 bounds_visit bounds_visit_range
      (fun x y => tree.arraySlice oty x y) value rng r n hv hg
      (fun x y s e hh => (bounds_visit_fn_ret rfl hh).1) h
    subst hr
    simp only [bounds_visit]
    exact h2
  · -- aggregate
    intro oty u assocs has r n h
    simp only [bounds_visit] at h
    obtain ⟨as', hr, h2⟩ := visit_step1 bounds_visit_assocs
      (fun x => tree.aggregate oty u x) assocs r n has
      (fun x s e hh => (bounds_visit_fn_ret rfl hh).1) h
    subst hr
    simp only [bounds_visit]
    exact h2
  · -- attrRef
    intro b name ps hn hps r n h
    simp only [bounds_visit] at h
    obtain ⟨n', p', hr, h2⟩ := visit_step2 bounds_visit bounds_visit_params
      (fun x y => tree.attrRef b x y) name ps r n hn hps
      (fun x y s e hh => (bounds_visit_fn_ret rfl hh).1) h
    subst hr
    simp only [bounds_visit]
    exact h2
  · -- funcDecl
    intro b name ports hp r n h
    simp only [bounds_visit] at h
    obtain ⟨p', hr, h2⟩ := visit_step1 bounds_visit_list
      (fun x => tree.funcDecl b name x) ports r n hp
      (fun x s e hh => ((Prod.mk.injEq .. ▸ epure_eq hh).1).symm) h
    subst hr
    simp only [bounds_visit]
    exact h2
  · -- funcBody
    intro b name ports decls stmts hp hd hs r n h
    simp only [bounds_visit] at h
    obtain ⟨p', d', s', hr, h2⟩ := visit_step3 bounds_visit_list
      bounds_visit_list bounds_visit_list
      (fun x y z => tree.funcBody b name x y z) ports decls stmts r n
      hp hd hs
      (fun x y z s e hh => ((Prod.mk.injEq .. ▸ epure_eq hh).1).symm) h
    subst hr
    simp only [bounds_visit]
    exact h2
  · -- varDecl
    intro oty name value hv r n h
    simp only [bounds_visit] at h
    obtain ⟨v', hr, h2⟩ := visit_step1 bounds_visit_opt
      (fun x => tree.varDecl oty name x) value r n hv
      (fun x s e hh => (bounds_visit_fn_ret rfl hh).1) h
    subst hr
    simp only [bounds_visit]
    exact h2
  · -- constDecl
    intro oty name value hv r n h
    simp only [bounds_visit] at h
    obtain ⟨v', hr, h2⟩ := visit_step1 bounds_visit_opt
      (fun x => tree.constDecl oty name x) value r n hv
      (fun x s e hh => (bounds_visit_fn_ret rfl hh).1) h
    subst hr
    simp only [bounds_visit]
    exact h2
  · -- signalDecl
    intro oty name value hv r n h
    simp only [bounds_visit] at h
    obtain ⟨v', hr, h2⟩ := visit_step1 bounds_visit_opt
      (fun x => tree.signalDecl oty name x) value r n hv
      (fun x s e hh => (bounds_visit_fn_ret rfl hh).1) h
    subst hr
    simp only [bounds_visit]
    exact h2
  · -- sreturn
    intro value hv r n h
    simp only [bounds_visit] at h
    obtain ⟨v', hr, h2⟩ := visit_step1 bounds_visit_opt
      (fun x => tree.sreturn x) value r n hv
      (fun x s e hh => ((Prod.mk.injEq .. ▸ epure_eq hh).1).symm) h
    subst hr
    simp only [bounds_visit]
    exact h2
  · -- swhile
    intro label cond stmts hc hs r n h
    simp only [bounds_visit] at h
    obtain ⟨c', s', hr, h2⟩ := visit_step2 bounds_visit_opt
      bounds_visit_list (fun x y => tree.swhile label x y) cond stmts r n
      hc hs
      (fun x y s e hh => ((Prod.mk.injEq .. ▸ epure_eq hh).1).symm) h
    subst hr
    simp only [bounds_visit]
    exact h2
  · -- sfor
    intro label decls rng stmts hd hg hs r n h
    simp only [bounds_visit] at h
    obtain ⟨d', g', s', hr, h2⟩ := visit_step3 bounds_visit_list
      bounds_visit_range bounds_visit_list
      (fun x y z => tree.sfor label x y z) decls rng stmts r n hd hg hs
      (fun x y z s e hh => ((Prod.mk.injEq .. ▸ epure_eq hh).1).symm) h
    subst hr
    simp only [bounds_visit]
    exact h2
  · -- sif
    intro cond stmts elseStmts hc hs he r n h
    simp only [bounds_visit] at h
    obtain ⟨c', s', e', hr, h2⟩ := visit_step3 bounds_visit
      bounds_visit_list bounds_visit_list
      (fun x y z => tree.sif x y z) cond stmts elseStmts r n hc hs he
      (fun x y z s e hh => ((Prod.mk.injEq .. ▸ epure_eq hh).1).symm) h
    subst hr
    simp only [bounds_visit]
    exact h2
  · -- svarAssign
    intro target value ht hv r n h
    simp only [bounds_visit] at h
    obtain ⟨t', v', hr, h2⟩ := visit_step2 bounds_visit bounds_visit
      (fun x y => tree.svarAssign x y) target value r n ht hv
      (fun x y s e hh => (bounds_visit_fn_ret rfl hh).1) h
    subst hr
    simp only [bounds_visit]
    exact h2
  · -- ssignalAssign
    intro target waveforms ht hw r n h
    simp only [bounds_visit] at h
    obtain ⟨t', w', hr, h2⟩ := visit_step2 bounds_visit bounds_visit_list
      (fun x y => tree.ssignalAssign x y) target waveforms r n ht hw
      (fun x y s e hh => (bounds_visit_fn_ret rfl hh).1) h
    subst hr
    simp only [bounds_visit]
    exact h2
  · -- sblock
    intro decls stmts hd hs r n h
    simp only [bounds_visit] at h
    obtain ⟨d', s', hr, h2⟩ := visit_step2 bounds_visit_list
      bounds_visit_list (fun x y => tree.sblock x y) decls stmts r n hd hs
      (fun x y s e hh => ((Prod.mk.injEq .. ▸ epure_eq hh).1).symm) h
    subst hr
    simp only [bounds_visit]
    exact h2
  · -- sexit
    intro label cond hc r n h
    simp only [bounds_visit] at h
    obtain ⟨c', hr, h2⟩ := visit_step1 bounds_visit_opt
      (fun x => tree.sexit label x) cond r n hc
      (fun x s e hh => ((Prod.mk.injEq .. ▸ epure_eq hh).1).symm) h
    subst hr
    simp only [bounds_visit]
    exact h2
  · -- scase
    intro value assocs hv ha r n h
    simp only [bounds_visit] at h
    obtain ⟨v', a', hr, h2⟩ := visit_step2 bounds_visit bounds_visit_assocs
      (fun x y => tree.scase x y) value assocs r n hv ha
      (fun x y s e hh => (bounds_visit_fn_ret rfl hh).1) h
    subst hr
    simp only [bounds_visit]
    exact h2
  · -- fallback: only the leaf node kinds remain
    intro t hne1 hne2 hne3 hne4 hne5 hne6 hne7 hne8 hne9 hne10 hne11
      hne12 hne13 hne14 hne15 hne16 hne17 hne18 hne19 hne20 hne21 hne22
    intro r n h
    cases t
    all_goals
      first
        | exact absurd rfl (hne1 _ _)
        | exact absurd rfl (hne2 _ _ _)
        | exact absurd rfl (hne3 _ _)
        | exact absurd rfl (hne4 _ _)
        | exact absurd rfl (hne5 _ _ _ _)
        | exact absurd rfl (hne6 _ _ _)
        | exact absurd rfl (hne7 _ _ _)
        | exact absurd rfl (hne8 _ _ _)
        | exact absurd rfl (hne9 _ _ _)
        | exact absurd rfl (hne10 _ _ _ _ _)
        | exact absurd rfl (hne11 _ _ _)
        | exact absurd rfl (hne12 _ _ _)
        | exact absurd rfl (hne13 _ _ _)
        | exact absurd rfl (hne14 _)
        | exact absurd rfl (hne15 _ _ _)
        | exact absurd rfl (hne16 _ _ _ _)
        | exact absurd rfl (hne17 _ _ _)
        | exact absurd rfl (hne18 _ _)
        | exact absurd rfl (hne19 _ _)
        | exact absurd rfl (hne20 _ _)
        | exact absurd rfl (hne21 _ _)
        | exact absurd rfl (hne22 _ _)
        | (simp only [bounds_visit] at h
           have hr := bounds_visit_fn_pres _ _ _
             (fun _ _ _ _ hh => tree.noConfusion hh) h
           subst hr
           simp only [bounds_visit]
           exact h)
  · -- rangeE
    intro l right kind hl hr' r n h
    simp only [bounds_visit_range] at h
    obtain ⟨a', b', hrr, h2⟩ := visit_rebuild2 bounds_visit bounds_visit
      (fun x y => rangeE.mk x y kind) l right r n hl hr' h
    subst hrr
    simp only [bounds_visit_range]
    exact h2
  · -- params nil
    intro r n h
    simp only [bounds_visit_params] at h
    obtain ⟨h1, h2⟩ := Prod.mk.injEq .. ▸ epure_eq h
    subst h1
    subst h2
    simp only [bounds_visit_params]
    rfl
  · -- params cons
    intro sub pos value rest hv hrest r n h
    simp only [bounds_visit_params] at h
    obtain ⟨v', rest', hrr, h2⟩ := visit_rebuild2 bounds_visit
      bounds_visit_params (fun x y => paramT.mk sub pos x :: y)
      value rest r n hv hrest h
    subst hrr
    simp only [bounds_visit_params]
    exact h2
  · -- assocs nil
    intro r n h
    simp only [bounds_visit_assocs] at h
    obtain ⟨h1, h2⟩ := Prod.mk.injEq .. ▸ epure_eq h
    subst h1
    subst h2
    simp only [bounds_visit_assocs]
    rfl
  · -- assocs apos
    intro value rest hv hrest r n h
    simp only [bounds_visit_assocs] at h
    obtain ⟨v', rest', hrr, h2⟩ := visit_rebuild2 bounds_visit
      bounds_visit_assocs (fun x y => assocT.apos x :: y)
      value rest r n hv hrest h
    subst hrr
    simp only [bounds_visit_assocs]
    exact h2
  · -- assocs anamed
    intro name value rest hn hv hrest r n h
    simp only [bounds_visit_assocs] at h
    obtain ⟨n', v', rest', hrr, h2⟩ := visit_rebuild3 bounds_visit
      bounds_visit bounds_visit_assocs
      (fun x y z => assocT.anamed x y :: z) name value rest r n
      hn hv hrest h
    subst hrr
    simp only [bounds_visit_assocs]
    exact h2
  · -- assocs arange
    intro rng value rest hg hv hrest r n h
    simp only [bounds_visit_assocs] at h
    obtain ⟨g', v', rest', hrr, h2⟩ := visit_rebuild3 bounds_visit_range
      bounds_visit bounds_visit_assocs
      (fun x y z => assocT.arange x y :: z) rng value rest r n
      hg hv hrest h
    subst hrr
    simp only [bounds_visit_assocs]
    exact h2
  · -- assocs aothers
    intro value rest hv hrest r n h
    simp only [bounds_visit_assocs] at h
    obtain ⟨v', rest', hrr, h2⟩ := visit_rebuild2 bounds_visit
      bounds_visit_assocs (fun x y => assocT.aothers x :: y)
      value rest r n hv hrest h
    subst hrr
    simp only [bounds_visit_assocs]
    exact h2
  · -- list nil
    intro r n h
    simp only [bounds_visit_list] at h
    obtain ⟨h1, h2⟩ := Prod.mk.injEq .. ▸ epure_eq h
    subst h1
    subst h2
    simp only [bounds_visit_list]
    rfl
  · -- list cons
    intro idecl tail hi htail r n h
    simp only [bounds_visit_list] at h
    obtain ⟨i', tail', hrr, h2⟩ := visit_rebuild2 bounds_visit
      bounds_visit_list (fun x y => x :: y) idecl tail r n hi htail h
    subst hrr
    simp only [bounds_visit_list]
    exact h2
  · -- opt none
    intro r n h
    simp only [bounds_visit_opt] at h
    obtain ⟨h1, h2⟩ := Prod.mk.injEq .. ▸ epure_eq h
    subst h1
    subst h2
    simp only [bounds_visit_opt]
    rfl
  · -- opt some
    intro t ht r n h
    simp only [bounds_visit_opt] at h
    obtain ⟨t', hrr, h2⟩ := visit_rebuild1 bounds_visit
      (fun x => (some x : Option tree)) t r n ht h
    subst hrr
    simp only [bounds_visit_opt]
    exact h2

/-- C9: `bounds_check` is idempotent - a second run on the tree produced
    by the first returns the very same tree (identical `elide_bounds`
    markings) and contributes the identical error count to the global
    counter read by `bounds_errors()`.  Beyond that counter and the
    attribute, the checker has no state to mutate. -/
theorem c9_bounds_check_idempotent (t r : tree) (n : Nat)
    (h : bounds_check t = Except.ok (r, n)) :
    bounds_check r = Except.ok (r, n) :=
  bounds_visit_idem t r n h

/-- C9 witness: checking `a(3)` (on `0 to 7`) marks it `elide_bounds`;
    the second run keeps the mark and again counts zero errors. -/
theorem c9_bounds_check_idempotent_witness :
    bounds_check (tree.arrayRef (some c_intTy)
        (tree.ref (some c_arrTy1) c_aDecl1)
        [paramT.mk psubkind.pPos 0 (c_il 3)] true)
      = Except.ok (tree.arrayRef (some c_intTy)
        (tree.ref (some c_arrTy1) c_aDecl1)
        [paramT.mk psubkind.pPos 0 (c_il 3)] true, 0) := by
  refine c9_bounds_check_idempotent (tree.arrayRef (some c_intTy)
    (tree.ref (some c_arrTy1) c_aDecl1)
    [paramT.mk psubkind.pPos 0 (c_il 3)] false) _ 0 ?_
  have h1 : bounds_visit (tree.ref (some c_arrTy1) c_aDecl1)
      = Except.ok (tree.ref (some c_arrTy1) c_aDecl1, 0) := by
    simp only [bounds_visit]
    rfl
  have h2 : bounds_visit (c_il 3) = Except.ok (c_il 3, 0) := by
    simp only [c_il, bounds_visit]
    rfl
  have h3 : bounds_visit_params [paramT.mk psubkind.pPos 0 (c_il 3)]
      = Except.ok ([paramT.mk psubkind.pPos 0 (c_il 3)], 0) := by
    simp only [bounds_visit_params, h2]
    simp [Bind.bind, Except.bind, pure, Except.pure]
  show bounds_visit _ = _
  simp only [bounds_visit, h1, h3]
  simp only [Bind.bind, Except.bind]
  rfl
